import Mathlib

/-!
Shallow embedding of `src/dpll.c`, a chronological-backtracking DPLL SAT
solver, together with theorems checking the natural-language specification
against it.

Conventions of the embedding:
* `unsigned char` fields are `Nat`, reduced `% 256` exactly where the C code
  stores a wider value into them;
* `char assigned_value` is `Int` (values `-1`, `0`, `1`);
* `int` counters are `Int`;
* the flat literal array `formula->literals` (one chunk of
  `lits_per_clause` literals per clause) is represented clause-wise: the C
  loops over the flat array visit exactly the clause chunks in order, so a
  loop over `i < nlit_total` becomes a loop over clauses and positions;
* C loops become structural recursion (over lists or an explicit fuel that
  equals the C iteration bound); the unbounded `goto retry` loops take a
  fuel parameter, and sufficiency of the fuel used is proved separately;
* reads of memory the program never initialized (ragged input files) are
  modelled by `Option`: a `none` slot is indeterminate memory.
-/

namespace DPLL

/-! ### Values and sentinels (src/dpll.c lines 34-66) -/

def VAL_FALSE : Int := 0
def VAL_TRUE : Int := 1
def VAL_UNASSIGNED : Int := -1

def InvalidLiteralName : Nat := 0
def InvalidStackDepth : Nat := 255
def STACK_MAX_CAPACITY : Nat := 255

/-! ### Literal (src lines 21-32) -/

structure Literal where
  name : Nat
  assigned_value : Int
  is_negated : Bool
  stack_depth : Nat
deriving DecidableEq, Inhabited

/-- `LiteralGivesTrue` macro (src lines 40-44). -/
def LiteralGivesTrue (l : Literal) : Bool :=
  (l.assigned_value == VAL_FALSE && l.is_negated) ||
  (l.assigned_value == VAL_TRUE && !l.is_negated)

/-- `LiteralIsInUse` macro (src lines 54-56). -/
def LiteralIsInUse (l : Literal) : Bool :=
  l.stack_depth == InvalidStackDepth || l.name == InvalidLiteralName

/-! ### Clause and Formula (src lines 68-89).

A clause owns its chunk of the flat literal array and the `n_in_use`
counter.  `lits_per_clause` is the (uniform) length of each chunk. -/

structure Clause where
  lits : List Literal
  n_in_use : Int
deriving DecidableEq, Inhabited

structure Formula where
  clauses : List Clause
deriving DecidableEq, Inhabited

/-- The flat literal array `formula->literals`, in order. -/
def formula_literals (f : Formula) : List Literal :=
  (f.clauses.map Clause.lits).flatten

/-! ### Assignment and stack (src lines 91-135).

The C struct has an `a_type` field; it is never assigned nor read anywhere
in the program (the `VAL_PROPAGATION` / `UNIT_PROPAGATION` discriminators
are dead), so the embedding omits it.  The stack is a list whose head is
the top; `depth` is the list length. -/

structure Assignment where
  literal_name : Nat
  oldval : Int
  newval : Int
  stack_depth : Nat
deriving DecidableEq, Inhabited

/-! ### delete_clause_from_formula (src lines 303-314) -/

def delete_clause_from_formula (cl : Clause) (stack_depth : Nat) : Clause :=
  { lits := cl.lits.map fun l =>
      if LiteralIsInUse l then { l with stack_depth := stack_depth } else l,
    n_in_use := 0 }

/-! ### clause_is_empty (src lines 316-336) -/

def clause_is_empty_loop : List Literal → Bool → Bool
  | [], all_unused => if all_unused then false else true
  | l :: rest, all_unused =>
    if !(LiteralIsInUse l) then clause_is_empty_loop rest all_unused
    else if l.assigned_value == VAL_UNASSIGNED then false
    else if LiteralGivesTrue l then false
    else clause_is_empty_loop rest false

def clause_is_empty (cl : Clause) : Bool :=
  clause_is_empty_loop cl.lits true

/-! ### propagate_literal_value (src lines 454-497)

The C function iterates the flat literal array; index `i` lives in clause
`i / lits_per_clause`.  We iterate clause by clause; inside a clause the
loop body matches src lines 462-493 exactly.  The early `return false`
(line 484) aborts the whole function, leaving the remaining clauses
untouched. -/

/-- Body of the flat-array loop restricted to one clause; `j` is the
position inside the clause, `fuel` the number of positions still to
visit (called with `fuel = cl.lits.length`, `j = 0`). -/
def plv_clause_loop (literal_name : Nat) (newvalue : Int) (stack_depth : Nat) :
    Nat → Nat → Clause → Clause × Bool
  | 0, _, cl => (cl, true)
  | fuel + 1, j, cl =>
    let l := cl.lits.getD j default
    if l.name != literal_name || !(LiteralIsInUse l) then
      plv_clause_loop literal_name newvalue stack_depth fuel (j + 1) cl
    else
      let l' := { l with assigned_value := newvalue }
      let cl' : Clause := { cl with lits := cl.lits.set j l' }
      if LiteralGivesTrue l' then
        plv_clause_loop literal_name newvalue stack_depth fuel (j + 1)
          (delete_clause_from_formula cl' stack_depth)
      else if clause_is_empty cl' then
        ({ lits := cl.lits.set j { l' with stack_depth := stack_depth },
           n_in_use := cl.n_in_use - 1 }, false)
      else
        plv_clause_loop literal_name newvalue stack_depth fuel (j + 1)
          { lits := cl.lits.set j { l' with stack_depth := stack_depth },
            n_in_use := cl.n_in_use - 1 }

def plv_clauses (literal_name : Nat) (newvalue : Int) (stack_depth : Nat) :
    List Clause → List Clause × Bool
  | [] => ([], true)
  | cl :: rest =>
    match plv_clause_loop literal_name newvalue stack_depth cl.lits.length 0 cl with
    | (cl', true) =>
      let r := plv_clauses literal_name newvalue stack_depth rest
      (cl' :: r.1, r.2)
    | (cl', false) => (cl' :: rest, false)

def propagate_literal_value (f : Formula) (literal_name : Nat) (newvalue : Int)
    (stack_depth : Nat) : Formula × Bool :=
  let r := plv_clauses literal_name newvalue stack_depth f.clauses
  (⟨r.1⟩, r.2)

/-! ### unit_propagate (src lines 338-429) -/

/-- Inner scan of the unit clause (src lines 361-373): visits every
position, without break, remembering the last in-use literal. -/
def find_unit_target (lits : List Literal) : Nat × Bool :=
  lits.foldl
    (fun acc l => if LiteralIsInUse l then (l.name, !l.is_negated) else acc)
    (InvalidLiteralName, false)

/-- Clause scan (src lines 351-375): the first clause with `n_in_use = 1`
(the loop breaks unconditionally after its inner scan). -/
def find_unit_clause : List Clause → Option (Nat × Bool)
  | [] => none
  | cl :: rest =>
    if cl.n_in_use == 1 then some (find_unit_target cl.lits)
    else find_unit_clause rest

/-- The C `bool value_to_assign` is stored into the `char assigned_value`. -/
def boolToVal (b : Bool) : Int := if b then 1 else 0

/-- The propagation pass of unit_propagate (src lines 380-423).  Clauses
with `n_in_use = 0` are skipped (line 384); the per-clause body (lines
389-422) coincides with the body of `propagate_literal_value`, including
the early `return false` on an empty clause (line 412). -/
def up_clauses (target : Nat) (value : Bool) (stack_depth : Nat) :
    List Clause → List Clause × Bool
  | [] => ([], true)
  | cl :: rest =>
    if cl.n_in_use == 0 then
      let r := up_clauses target value stack_depth rest
      (cl :: r.1, r.2)
    else
      match plv_clause_loop target (boolToVal value) stack_depth cl.lits.length 0 cl with
      | (cl', true) =>
        let r := up_clauses target value stack_depth rest
        (cl' :: r.1, r.2)
      | (cl', false) => (cl' :: rest, false)

/-- The `retry` loop of unit_propagate, with fuel.  Each completed round
deletes the found unit clause, so `totalInUse f + 1` rounds always reach
the C loop's exit (proved below in `unit_propagate_fuel_sufficient`). -/
def unit_propagate (stack_depth : Nat) : Nat → Formula → Formula × Bool
  | 0, f => (f, true)
  | fuel + 1, f =>
    match find_unit_clause f.clauses with
    | none => (f, true)
    | some tv =>
      if tv.1 == InvalidLiteralName then (f, true)
      else
        let r := up_clauses tv.1 tv.2 stack_depth f.clauses
        if r.2 then unit_propagate stack_depth fuel ⟨r.1⟩
        else (⟨r.1⟩, false)

/-- Number of in-use literals of the whole formula. -/
def totalInUse (f : Formula) : Nat :=
  (f.clauses.map fun cl => cl.lits.countP LiteralIsInUse).sum

/-- unit_propagate as called by the search driver: the fuel bound
`totalInUse f + 1` dominates the number of rounds of the C loop. -/
def unit_propagate_run (f : Formula) (stack_depth : Nat) : Formula × Bool :=
  unit_propagate stack_depth (totalInUse f + 1) f

/-! ### find_unassigned_literal (src lines 431-449) -/

def ful_loop : List Literal → Nat
  | [] => InvalidLiteralName
  | l :: rest =>
    if !(LiteralIsInUse l) then ful_loop rest
    else if l.assigned_value == VAL_UNASSIGNED then l.name
    else ful_loop rest

def find_unassigned_literal (f : Formula) : Nat :=
  ful_loop (formula_literals f)

/-! ### revert_change (src lines 137-156) -/

/-- Body of the revert loop for one literal; the `Int` is the increment it
contributes to its clause's `n_in_use`. -/
def revert_literal (a : Assignment) (l : Literal) : Literal × Int :=
  if l.stack_depth != a.stack_depth then (l, 0)
  else
    let step1 :=
      if !(LiteralIsInUse l) then
        (({ l with stack_depth := InvalidStackDepth } : Literal), (1 : Int))
      else (l, (0 : Int))
    (if step1.1.name == a.literal_name then
       { step1.1 with assigned_value := a.oldval }
     else step1.1,
     step1.2)

def revert_clause (a : Assignment) (cl : Clause) : Clause :=
  { lits := cl.lits.map fun l => (revert_literal a l).1,
    n_in_use := cl.n_in_use + (cl.lits.map fun l => (revert_literal a l).2).sum }

def revert_change (f : Formula) (a : Assignment) : Formula :=
  ⟨f.clauses.map (revert_clause a)⟩

/-! ### print_formula (src lines 158-182), output modelled as the list of
strings successive `printf` calls emit to standard output. -/

def print_formula_clause (lits_per_clause : Nat) (lits : List Literal) : List String :=
  (lits.enum.filter fun jl => LiteralIsInUse jl.2).map fun jl =>
    (if jl.2.is_negated then "NOT " else "") ++ toString jl.2.name ++ " " ++
      (if jl.1 == lits_per_clause - 1 then "\n" else "OR ")

def print_formula (f : Formula) (additional_str : Option String) : List String :=
  (match additional_str with
   | some s => [s ++ "\n"]
   | none => []) ++
  (f.clauses.map fun cl => print_formula_clause cl.lits.length cl.lits).flatten ++
  ["============\n\n"]

/-! ### The search driver (src lines 601-675)

One state machine with two entry points: the head of the `while (true)`
loop (`Mode.choose`) and the `retry:` label (`Mode.retry a`, where `a` is
the C local `Assignment a` at that point).  `fuel` bounds the number of
visits to these two program points; the C loop has no such bound, so
"the C program reaches a verdict" is "some fuel yields `done`".

`push` (src lines 113-125) is inlined: it sets the entry's depth to
`stack.length + 1` (the value the `unsigned char` arithmetic produces
whenever the capacity check passed), exits the process on overflow, and
stores the entry.  `pop` (127-129) is the list head. -/

inductive Verdict where
  | sat | unsat | overflow
deriving DecidableEq

inductive DriverResult where
  | done (v : Verdict) (f : Formula) (stack : List Assignment) (out : List String)
  | outOfFuel (f : Formula) (stack : List Assignment) (out : List String)
deriving DecidableEq

inductive Mode where
  | choose
  | retry (a : Assignment)
deriving DecidableEq

/-- Backtrack loop (src lines 654-662): `do { if empty break; a = pop;
revert; print; } while (a.newval == VAL_FALSE)`.  Returns the final
formula, stack, output and the final value of the C variable `a`. -/
def unwind_loop :
    Formula → List Assignment → List String → Assignment →
    Formula × List Assignment × List String × Assignment
  | f, [], out, a => (f, [], out, a)
  | f, a' :: rest, out, _ =>
    let f' := revert_change f a'
    let out' := out ++ print_formula f' (some "reverted in cycle")
    if a'.newval == VAL_FALSE then unwind_loop f' rest out' a'
    else (f', rest, out', a')

def dpll_loop : Nat → Mode → Formula → List Assignment → List String → DriverResult
  | 0, _, f, stack, out => .outOfFuel f stack out
  | fuel + 1, .choose, f, stack, out =>
    let out := out ++ print_formula f (some "cycle head")
    let name := find_unassigned_literal f
    if name == InvalidLiteralName then
      .done .sat f stack (out ++ ["SAT\n"])
    else if STACK_MAX_CAPACITY ≤ stack.length then
      .done .overflow f stack (out ++ ["Assignment stack overflow\n"])
    else
      let a : Assignment :=
        { literal_name := name, oldval := VAL_UNASSIGNED, newval := VAL_TRUE,
          stack_depth := stack.length + 1 }
      let stack1 := a :: stack
      let p := propagate_literal_value f a.literal_name a.newval a.stack_depth
      if p.2 then
        let out1 := out ++ print_formula p.1 (some "true val works 1")
        let u := unit_propagate_run p.1 a.stack_depth
        if u.2 then
          dpll_loop fuel .choose u.1 stack1
            (out1 ++ print_formula u.1 (some "true val works 2"))
        else
          let out2 := out1 ++ print_formula u.1 (some "true val didnt work")
          let f2 := revert_change u.1 a
          dpll_loop fuel (.retry a) f2 stack
            (out2 ++ print_formula f2 (some "reverted"))
      else
        let out2 := out ++ print_formula p.1 (some "true val didnt work")
        let f2 := revert_change p.1 a
        dpll_loop fuel (.retry a) f2 stack
          (out2 ++ print_formula f2 (some "reverted"))
  | fuel + 1, .retry a0, f, stack, out =>
    if STACK_MAX_CAPACITY ≤ stack.length then
      .done .overflow f stack (out ++ ["Assignment stack overflow\n"])
    else
      let a : Assignment :=
        { a0 with oldval := VAL_TRUE, newval := VAL_FALSE,
                  stack_depth := stack.length + 1 }
      let stack1 := a :: stack
      let p := propagate_literal_value f a.literal_name a.newval a.stack_depth
      if p.2 then
        let out1 := out ++ print_formula p.1 (some "false val works 1")
        let u := unit_propagate_run p.1 a.stack_depth
        if u.2 then
          dpll_loop fuel .choose u.1 stack1
            (out1 ++ print_formula u.1 (some "false val works 2"))
        else
          let out2 := out1 ++ print_formula u.1 (some "false val didnt work")
          let w := unwind_loop u.1 stack1 out2 a
          if w.2.1.isEmpty then
            if w.2.2.2.newval == VAL_TRUE then
              dpll_loop fuel (.retry w.2.2.2) w.1 w.2.1 w.2.2.1
            else
              .done .unsat w.1 w.2.1
                (w.2.2.1 ++ print_formula w.1 none ++ ["UNSAT\n"])
          else
            dpll_loop fuel (.retry w.2.2.2) w.1 w.2.1 w.2.2.1
      else
        let out2 := out ++ print_formula p.1 (some "false val didnt work")
        let w := unwind_loop p.1 stack1 out2 a
        if w.2.1.isEmpty then
          if w.2.2.2.newval == VAL_TRUE then
            dpll_loop fuel (.retry w.2.2.2) w.1 w.2.1 w.2.2.1
          else
            .done .unsat w.1 w.2.1
              (w.2.2.1 ++ print_formula w.1 none ++ ["UNSAT\n"])
        else
          dpll_loop fuel (.retry w.2.2.2) w.1 w.2.1 w.2.2.1

/-- The search driver on an assembled formula, starting from the empty
stack (src lines 558-562, 601-675). -/
def dpll_search (f : Formula) (fuel : Nat) : DriverResult :=
  dpll_loop fuel .choose f [] []

/-! ### Parsing (src lines 184-301, 514-549, 574-599)

Input is modelled from the point after `p cnf <N> <M>` was consumed: the
remaining byte stream is the list of the integer tokens `fscanf("%d")`
delivers, in order.  `read_next_val` (src 283-301) silently skips zero
tokens, so clause terminators never reach the fill loop: the solver packs
all non-zero tokens consecutively, `lits_per_clause` at a time, using the
first clause's length for every clause. -/

/-- find_nlit_per_clause (src 253-277): length of the token prefix before
the first `0` (or the whole stream if none). -/
def find_nlit_per_clause : List Int → Nat
  | [] => 0
  | v :: rest => if v == 0 then 0 else find_nlit_per_clause rest + 1

/-- The two malloc'd arrays of `create_formula`; a `none` slot was never
written and holds indeterminate memory. -/
structure Store where
  literals : List (Option Literal)
  clause_n : List (Option Int)
deriving DecidableEq, Inhabited

def initStore (nlit_total nclauses : Nat) : Store :=
  ⟨List.replicate nlit_total none, List.replicate nclauses none⟩

inductive FillResult where
  /-- the read loop ended at end of stream -/
  | ok (s : Store)
  /-- `val > nvariables` (src 583): report and `goto exit`; dpll returns 1 -/
  | formatError (s : Store) (out : List String)
  /-- the stream holds more literals than `nlit_total`: out-of-bounds write -/
  | outOfBounds (s : Store)
deriving DecidableEq

/-- Storing literal `l` at slot `i` (src 589-596): writes the literal and,
at the first slot of a chunk, initializes that clause's header. -/
def store_write (s : Store) (lits_per_clause i : Nat) (l : Literal) : Store :=
  let s1 : Store := { s with literals := s.literals.set i (some l) }
  if i % lits_per_clause == 0 then
    { s1 with clause_n :=
        s1.clause_n.set (i / lits_per_clause) (some (lits_per_clause : Int)) }
  else s1

/-- The fill loop of dpll (src 574-599). -/
def fill_loop (nvariables : Int) (lits_per_clause : Nat) :
    List Int → Nat → Store → FillResult
  | [], _, s => .ok s
  | v :: rest, i, s =>
    if v == 0 then fill_loop nvariables lits_per_clause rest i s
    else
      let l : Literal :=
        { name := (if v > 0 then v else v * (-1)).toNat % 256,
          assigned_value := VAL_UNASSIGNED,
          is_negated := decide (v < 0),
          stack_depth := InvalidStackDepth }
      if v > nvariables then .formatError s ["Invalid file format\n"]
      else if i < s.literals.length then
        fill_loop nvariables lits_per_clause rest (i + 1)
          (store_write s lits_per_clause i l)
      else .outOfBounds s

def option_all {α : Type} : List (Option α) → Option (List α)
  | [] => some []
  | none :: _ => none
  | some a :: rest => (option_all rest).map (a :: ·)

def chunks : Nat → Nat → List Literal → List (List Literal)
  | 0, _, _ => []
  | n + 1, L, ls => ls.take L :: chunks n L (ls.drop L)

/-- Reading the filled store back as a `Formula`: defined only when every
slot the search loop will read was actually written. -/
def assemble_formula (s : Store) (L nclauses : Nat) : Option Formula :=
  match option_all s.literals, option_all s.clause_n with
  | some lits, some ns =>
    some ⟨(List.zip (chunks nclauses L lits) ns).map fun p =>
      { lits := p.1, n_in_use := p.2 }⟩
  | _, _ => none

inductive DpllOutcome where
  /-- create_formula failed (`find_nlit_per_clause = 0`): dpll returns 0 -/
  | createError (out : List String) (dpll_ret : Int)
  /-- literal above `nvariables`: dpll returns 1 -/
  | formatError (out : List String) (dpll_ret : Int)
  /-- the search loop would read memory the program never wrote -/
  | indeterminate
  | ran (r : DriverResult) (dpll_ret : Int)
deriving DecidableEq

/-- dpll (src 551-682) from the token stream. -/
def dpll (tokens : List Int) (nclauses : Nat) (nvariables : Int) (fuel : Nat) :
    DpllOutcome :=
  let L := find_nlit_per_clause tokens
  if L == 0 then .createError ["Internal error: Invalid file format\n"] 0
  else
    match fill_loop nvariables L tokens 0 (initStore (L * nclauses) nclauses) with
    | .formatError _ out => .formatError out 1
    | .outOfBounds _ => .indeterminate
    | .ok s =>
      match assemble_formula s L nclauses with
      | none => .indeterminate
      | some f => .ran (dpll_search f fuel) 1

/-- Exit status of `main` (src 684-712) given dpll's outcome: `main`
returns `-1` iff dpll returned 0, else 0 — except that a stack overflow
calls `exit(1)` from inside `push`.  `none` marks runs whose exit status
the source does not determine. -/
def main_ret : DpllOutcome → Option Int
  | .createError _ r => if r == 0 then some (-1) else some 0
  | .formatError _ r => if r == 0 then some (-1) else some 0
  | .indeterminate => none
  | .ran (.done .overflow _ _ _) _ => some 1
  | .ran (.done _ _ _ _) r => if r == 0 then some (-1) else some 0
  | .ran (.outOfFuel _ _ _) _ => none

/-- The `nvariables > 254` guard of main (src 705-706). -/
def main_check_nvariables (nvariables : Int) : Option (String × Int) :=
  if nvariables > 254 then some ("Internal error: Too many variables\n", -1) else none

/-- main after the header was parsed (src 702-711). -/
def main_after_header (nvariables ndisjunctions : Int) (tokens : List Int)
    (fuel : Nat) : Option Int × List String :=
  match main_check_nvariables nvariables with
  | some e => (some e.2, [e.1])
  | none =>
    let o := dpll tokens ndisjunctions.toNat nvariables fuel
    (main_ret o, [])

/-! ### Spec-side truth semantics (spec sections 3, 8)

These definitions follow the specification's words, not the source: a
total assignment maps variable `i+1` to `asn[i]`; a clause is satisfied
when some literal is true under it.  They are the yardstick the verdict
claims (C1, C2, C6) are measured against. -/

def spec_lit_true (asn : List Bool) (v : Int) : Bool :=
  if v > 0 then asn.getD (v.toNat - 1) false
  else !(asn.getD ((-v).toNat - 1) false)

def spec_clause_sat (asn : List Bool) (c : List Int) : Bool :=
  c.any (spec_lit_true asn)

def spec_formula_sat (asn : List Bool) (cs : List (List Int)) : Bool :=
  cs.all (spec_clause_sat asn)

def all_assignments : Nat → List (List Bool)
  | 0 => [[]]
  | n + 1 =>
    (all_assignments n).map (false :: ·) ++ (all_assignments n).map (true :: ·)

def spec_satisfiable (nvars : Nat) (cs : List (List Int)) : Bool :=
  (all_assignments nvars).any fun asn => spec_formula_sat asn cs

/-! ### Projections used by theorem statements -/

/-- The verdict of a finished run, when there is one. -/
def run_verdict : DpllOutcome → Option Verdict
  | .ran (.done v _ _ _) _ => some v
  | _ => none

/-- The formula state at the moment the verdict was printed. -/
def run_final_formula : DpllOutcome → Option Formula
  | .ran (.done _ f _ _) _ => some f
  | _ => none

/-- The standard-output lines of a finished run. -/
def run_output : DpllOutcome → Option (List String)
  | .ran (.done _ _ _ out) _ => some out
  | _ => none

def fill_store : FillResult → Store
  | .ok s => s
  | .formatError s _ => s
  | .outOfBounds s => s

/-- The formula the create/fill phase of dpll delivers to the search loop
(`create_formula` plus the read loop, src 514-599), when it is fully
determined. -/
def parsed_formula (tokens : List Int) (nclauses : Nat) (nvariables : Int) :
    Option Formula :=
  let L := find_nlit_per_clause tokens
  if L == 0 then none
  else
    match fill_loop nvariables L tokens 0 (initStore (L * nclauses) nclauses) with
    | .ok s => assemble_formula s L nclauses
    | _ => none


/-! ## Invariants and the single-depth modification relation

Propagation at depth `d` (`propagate_literal_value` followed by rounds of
`unit_propagate`, all tagging with the same `d`) changes a literal in
exactly one way: a literal that was `IN_USE` may be retagged `d`, its
assigned value rewritten.  `LitRel d` is that per-literal contract;
`revert_change` at depth `d` is proved below to invert it up to the
assigned values of literals whose name differs from the reverted entry's. -/

/-- Invariant I1 of the spec: each counter equals the clause's number of
in-use literals. -/
def clause_counts_ok (cl : Clause) : Prop :=
  cl.n_in_use = (cl.lits.countP LiteralIsInUse : Int)

def counts_ok (f : Formula) : Prop :=
  ∀ cl ∈ f.clauses, clause_counts_ok cl

/-- No literal bears the reserved name `InvalidLiteralName`. -/
def names_ok (f : Formula) : Prop :=
  ∀ l ∈ formula_literals f, l.name ≠ InvalidLiteralName

/-- Depth `d` tags no literal of `f` (it is about to be used by a fresh
push). -/
def depth_fresh (d : Nat) (f : Formula) : Prop :=
  ∀ l ∈ formula_literals f, l.stack_depth ≠ d

/-- How one propagation at depth `d` may change a single literal: left
untouched, or retagged from `IN_USE` to `d` with an arbitrary new assigned
value. -/
def LitRel (d : Nat) (l0 l : Literal) : Prop :=
  l.name = l0.name ∧ l.is_negated = l0.is_negated ∧
  ((l.stack_depth = l0.stack_depth ∧ l.assigned_value = l0.assigned_value) ∨
   (l0.stack_depth = InvalidStackDepth ∧ l.stack_depth = d))

def ClauseRel (d : Nat) (c0 c : Clause) : Prop :=
  List.Forall₂ (LitRel d) c0.lits c.lits

def FormulaRel (d : Nat) (f0 f : Formula) : Prop :=
  List.Forall₂ (ClauseRel d) f0.clauses f.clauses

/-- What `revert_change` at entry `a` restores, literal by literal: name,
negation and tag return to their pre-push state; the assigned value
returns whenever the literal bears the reverted entry's name and held the
recorded old value before the push. -/
def RevertedRel (a : Assignment) (l0 l3 : Literal) : Prop :=
  l3.name = l0.name ∧ l3.is_negated = l0.is_negated ∧
  l3.stack_depth = l0.stack_depth ∧
  (l0.name = a.literal_name → l0.assigned_value = a.oldval →
    l3.assigned_value = l0.assigned_value)

/-! ## Termination bookkeeping for the search driver

The driver tries each decision variable TRUE then FALSE.  Reading the
stack's `newval` polarities as a binary numeral (bottom entry most
significant, FALSE = 1), every flip strictly increases the numeral, and
a fresh decision extends the stack without changing it; the stack depth
is bounded by the number of distinct literal names.  This yields a
strictly decreasing measure on driver configurations. -/

/-- No in-use literal of `f` bears the name `v`. -/
def name_dead (v : Nat) (f : Formula) : Prop :=
  ∀ l ∈ formula_literals f, l.name = v → LiteralIsInUse l = false

/-- The polarity word of the stack as a binary numeral; the head (top of
stack) is the least significant bit, `FALSE` counts 1. -/
def nuStack : List Assignment → Nat
  | [] => 0
  | a :: rest => 2 * nuStack rest + (if a.newval == VAL_FALSE then 1 else 0)

def stackPadded (N : Nat) (st : List Assignment) : Nat :=
  nuStack st * 2 ^ (N - st.length)

/-- Weight of a pending `retry`: the stack with the FALSE entry the retry
is about to push already accounted for. -/
def retryW (N : Nat) (st : List Assignment) : Nat :=
  (2 * nuStack st + 1) * 2 ^ (N - st.length - 1)

/-- Lexicographic measure (explored weight, remaining depth, mode) packed
into one natural number. -/
def configMeasure (N : Nat) : Mode → List Assignment → Nat
  | .choose, st => (2 ^ N - stackPadded N st) * (2 * N + 2) + (N - st.length) * 2
  | .retry _, st => (2 ^ N - retryW N st) * (2 * N + 2) + (N - st.length - 1) * 2 + 1

/-- Invariant tying the formula store to the assignment stack at the two
driver loop heads.  `nl` is the fixed name sequence of the flat literal
array. -/
def DriverInv (nl : List Nat) (f : Formula) (st : List Assignment) : Prop :=
  counts_ok f
  ∧ (formula_literals f).map Literal.name = nl
  ∧ (∀ l ∈ formula_literals f,
      l.stack_depth = InvalidStackDepth ∨ l.stack_depth ≤ st.length)
  ∧ (∀ j, ∀ h : j < st.length, (st.get ⟨j, h⟩).stack_depth = st.length - j)
  ∧ (∀ j, ∀ h : j < st.length, ∀ l ∈ formula_literals f,
      l.name = (st.get ⟨j, h⟩).literal_name → l.stack_depth ≤ st.length - j)
  ∧ (st.map Assignment.literal_name).Nodup
  ∧ (∀ e ∈ st, e.literal_name ∈ nl ∧ e.literal_name ≠ InvalidLiteralName
      ∧ (e.newval = VAL_TRUE ∨ e.newval = VAL_FALSE))

/-- `DriverInv` with its name-depth bound weakened to the entries below
the top: the state reached right after a failed propagation of the top
entry satisfies only this much, and the top entry is popped next. -/
def DriverInvW (nl : List Nat) (f : Formula) (st : List Assignment) : Prop :=
  counts_ok f
  ∧ (formula_literals f).map Literal.name = nl
  ∧ (∀ l ∈ formula_literals f,
      l.stack_depth = InvalidStackDepth ∨ l.stack_depth ≤ st.length)
  ∧ (∀ j, ∀ h : j < st.length, (st.get ⟨j, h⟩).stack_depth = st.length - j)
  ∧ (∀ j, ∀ h : j < st.length, 1 ≤ j → ∀ l ∈ formula_literals f,
      l.name = (st.get ⟨j, h⟩).literal_name → l.stack_depth ≤ st.length - j)
  ∧ (st.map Assignment.literal_name).Nodup
  ∧ (∀ e ∈ st, e.literal_name ∈ nl ∧ e.literal_name ≠ InvalidLiteralName
      ∧ (e.newval = VAL_TRUE ∨ e.newval = VAL_FALSE))

def DriverResult.isDone : DriverResult → Bool
  | .done _ _ _ _ => true
  | .outOfFuel _ _ _ => false

/-! ## Concrete inputs used by the claim theorems -/

/-- Token stream of `p cnf 2 3` / `1 -1 0` / `-2 -2 0` / `2 2 0`. -/
def c1_tokens : List Int := [1, -1, 0, -2, -2, 0, 2, 2, 0]

def c1_clauses : List (List Int) := [[1, -1], [-2, -2], [2, 2]]

/-- Token stream of `p cnf 3 3` / `-1 2 0` / `3 3 0` / `-2 -3 0`. -/
def c2_tokens : List Int := [-1, 2, 0, 3, 3, 0, -2, -3, 0]

def c2_clauses : List (List Int) := [[-1, 2], [3, 3], [-2, -3]]

/-- The parsed store of `p cnf 2 1` / `-1 2 0`: one clause `(NOT 1 OR 2)`. -/
def c3_f0 : Formula :=
  ⟨[{ lits := [ { name := 1, assigned_value := -1, is_negated := true,  stack_depth := 255 },
                { name := 2, assigned_value := -1, is_negated := false, stack_depth := 255 } ],
      n_in_use := 2 }]⟩

/-- Token stream of `p cnf 3 3` / `1 2 3 0` / `-1 -2 0` / `-3 0`
(the clause lengths differ: 3, 2, 1). -/
def c6_tokens : List Int := [1, 2, 3, 0, -1, -2, 0, -3, 0]

/-- Token stream of `p cnf 3 1` / `-5 -5 -5 0`: every literal has absolute
value 5 > 3. -/
def c7_tokens : List Int := [-5, -5, -5, 0]

/-- The parsed store of `p cnf 2 1` / `2 1 0`: one clause `(2 OR 1)`. -/
def c8_formula : Formula :=
  ⟨[{ lits := [ { name := 2, assigned_value := -1, is_negated := false, stack_depth := 255 },
                { name := 1, assigned_value := -1, is_negated := false, stack_depth := 255 } ],
      n_in_use := 2 }]⟩

/-- Token stream of `p cnf 1 1` / `1 0`. -/
def c9_tokens : List Int := [1, 0]


/-! ## Helper lemmas -/

theorem store_write_literals_length (s : Store) (L i : Nat) (l : Literal) :
    (store_write s L i l).literals.length = s.literals.length := by
  unfold store_write
  split <;> simp


/-! ## Basic facts about the modification relation -/

theorem litRel_refl (d : Nat) (l : Literal) : LitRel d l l :=
  ⟨rfl, rfl, Or.inl ⟨rfl, rfl⟩⟩

theorem litRel_trans {d : Nat} (h255 : d ≠ InvalidStackDepth) {a b c : Literal}
    (h1 : LitRel d a b) (h2 : LitRel d b c) : LitRel d a c := by
  obtain ⟨n1, g1, k1⟩ := h1
  obtain ⟨n2, g2, k2⟩ := h2
  refine ⟨n2.trans n1, g2.trans g1, ?_⟩
  rcases k1 with ⟨d1, v1⟩ | ⟨u1, t1⟩
  · rcases k2 with ⟨d2, v2⟩ | ⟨u2, t2⟩
    · exact Or.inl ⟨d2.trans d1, v2.trans v1⟩
    · exact Or.inr ⟨d1 ▸ u2, t2⟩
  · rcases k2 with ⟨d2, v2⟩ | ⟨u2, t2⟩
    · exact Or.inr ⟨u1, d2.trans t1⟩
    · exact absurd (t1.symm.trans u2) h255

theorem forall₂_trans_of (R : α → α → Prop)
    (htrans : ∀ a b c : α, R a b → R b c → R a c) :
    ∀ {l m n : List α}, List.Forall₂ R l m → List.Forall₂ R m n →
      List.Forall₂ R l n := by
  intro l m n h1
  induction h1 generalizing n with
  | nil =>
    intro h2
    cases h2
    exact List.Forall₂.nil
  | cons hab h ih =>
    intro h2
    cases h2 with
    | cons hbc h2 => exact List.Forall₂.cons (htrans _ _ _ hab hbc) (ih h2)

theorem forall₂_mem_right {R : α → β → Prop} :
    ∀ {l : List α} {m : List β}, List.Forall₂ R l m →
      ∀ b ∈ m, ∃ a ∈ l, R a b := by
  intro l m h
  induction h with
  | nil => simp
  | cons hab htu ih =>
    intro b hb
    rcases List.mem_cons.mp hb with rfl | hb
    · exact ⟨_, by simp, hab⟩
    · obtain ⟨a, ha, hr⟩ := ih b hb
      exact ⟨a, by simp [ha], hr⟩

theorem forall₂_map_self {R : α → α → Prop} (g : α → α) :
    ∀ (l : List α), (∀ x ∈ l, R x (g x)) → List.Forall₂ R l (l.map g)
  | [], _ => List.Forall₂.nil
  | a :: t, h =>
    List.Forall₂.cons (h a (by simp))
      (forall₂_map_self g t fun x hx => h x (by simp [hx]))

theorem forall₂_set_right {R : α → α → Prop} (dflt : α) :
    ∀ {l m : List α}, List.Forall₂ R l m →
      ∀ (j : Nat) (x : α), (j < l.length → R (l.getD j dflt) x) →
      List.Forall₂ R l (m.set j x) := by
  intro l m h
  induction h with
  | nil =>
    intro j x _
    exact List.Forall₂.nil
  | cons hab htu ih =>
    intro j x hx
    cases j with
    | zero => exact List.Forall₂.cons (hx (by simp)) htu
    | succ j =>
      exact List.Forall₂.cons hab
        (ih j x fun hj => hx (by simpa using Nat.succ_lt_succ hj))

theorem clauseRel_refl (d : Nat) (c : Clause) : ClauseRel d c c :=
  List.forall₂_same.mpr fun l _ => litRel_refl d l

theorem clauseRel_trans {d : Nat} (h255 : d ≠ InvalidStackDepth)
    {a b c : Clause} (h1 : ClauseRel d a b) (h2 : ClauseRel d b c) :
    ClauseRel d a c :=
  forall₂_trans_of (LitRel d) (fun _ _ _ hab hbc => litRel_trans h255 hab hbc) h1 h2

theorem formulaRel_refl (d : Nat) (f : Formula) : FormulaRel d f f :=
  List.forall₂_same.mpr fun c _ => clauseRel_refl d c

theorem formulaRel_trans {d : Nat} (h255 : d ≠ InvalidStackDepth)
    {a b c : Formula} (h1 : FormulaRel d a b) (h2 : FormulaRel d b c) :
    FormulaRel d a c :=
  forall₂_trans_of (ClauseRel d) (fun _ _ _ hab hbc => clauseRel_trans h255 hab hbc) h1 h2

theorem isInUse_iff {l : Literal} (h : l.name ≠ InvalidLiteralName) :
    LiteralIsInUse l = true ↔ l.stack_depth = InvalidStackDepth := by
  simp [LiteralIsInUse, h]

theorem clauseRel_names {d : Nat} {c0 c : Clause} (h : ClauseRel d c0 c)
    (hnz : ∀ l ∈ c0.lits, l.name ≠ InvalidLiteralName) :
    ∀ l ∈ c.lits, l.name ≠ InvalidLiteralName := by
  intro l hl
  obtain ⟨l0, hl0, hr⟩ := forall₂_mem_right h l hl
  rw [hr.1]
  exact hnz l0 hl0

theorem countP_set_true_false (p : α → Bool) (dflt : α) :
    ∀ (l : List α) (j : Nat) (x : α), j < l.length →
      p (l.getD j dflt) = true → p x = false →
      (l.set j x).countP p + 1 = l.countP p := by
  intro l
  induction l with
  | nil =>
    intro j x h
    simp at h
  | cons a t ih =>
    intro j x hj hp hx
    cases j with
    | zero =>
      simp only [List.getD_cons_zero] at hp
      simp [List.countP_cons, hp, hx]
    | succ j =>
      have hrec := ih j x (by simpa using hj)
        (by simpa [List.getD_cons_succ] using hp) hx
      simp only [List.set_cons_succ, List.countP_cons]
      omega

/-! ## Claim theorems -/

/-- C1: the claim states that a `SAT` verdict means the assignment held at
that moment satisfies every original clause.  On the input `p cnf 2 3` /
`1 -1 0` / `-2 -2 0` / `2 2 0` the solver prints `SAT`, yet the formula
is unsatisfiable (no assignment of its 2 variables satisfies all three
clauses), and in the final store every literal of the second original
clause `(NOT 2 OR NOT 2)` evaluates false under its held value. -/
theorem c1_sat_on_unsat :
    run_verdict (dpll c1_tokens 3 2 50) = some .sat
  ∧ spec_satisfiable 2 c1_clauses = false
  ∧ (((run_final_formula (dpll c1_tokens 3 2 50)).getD default).clauses.getD 1
       default).lits.all (fun l => !LiteralGivesTrue l) = true := by
  refine ⟨rfl, by decide, by decide⟩

/-- C2: the claim states that an `UNSAT` verdict means no total assignment
satisfies the input formula.  On `p cnf 3 3` / `-1 2 0` / `3 3 0` /
`-2 -3 0` the solver prints `UNSAT`, yet the assignment
`1 := false, 2 := false, 3 := true` satisfies every clause. -/
theorem c2_unsat_on_sat :
    run_verdict (dpll c2_tokens 3 3 50) = some .unsat
  ∧ spec_formula_sat [false, false, true] c2_clauses = true
  ∧ spec_satisfiable 3 c2_clauses = true := by
  refine ⟨rfl, by decide, by decide⟩


/-- The round trip of claim C3 on `c3_f0`: push `1 := TRUE` at depth 1,
propagate, unit-propagate (which forces `2 := TRUE` at the same depth),
then revert depth 1. -/
def c3_push : Assignment :=
  { literal_name := 1, oldval := VAL_UNASSIGNED, newval := VAL_TRUE, stack_depth := 1 }

def c3_f3 : Formula :=
  revert_change
    (unit_propagate_run (propagate_literal_value c3_f0 1 VAL_TRUE 1).1 1).1
    c3_push

/-- C3: the claim states that push + propagate + revert restores the
formula store exactly.  On the one-clause store `(NOT 1 OR 2)`, pushing
`1 := TRUE` at depth 1 unit-propagates `2 := TRUE`; reverting depth 1
leaves literal 2 with assigned value `TRUE` instead of its pre-push
`UNASSIGNED`, so the store is not restored. -/
theorem c3_roundtrip_counterexample :
    c3_f3 ≠ c3_f0
  ∧ ((formula_literals c3_f3).getD 1 default).assigned_value = VAL_TRUE
  ∧ ((formula_literals c3_f0).getD 1 default).assigned_value = VAL_UNASSIGNED := by
  refine ⟨by decide, by decide, by decide⟩

/-- Formula state after one `choose` iteration of the driver on `c3_f0`. -/
def c5_f2 : Formula :=
  ⟨[{ lits := [ { name := 1, assigned_value := 1, is_negated := true,  stack_depth := 1 },
                { name := 2, assigned_value := 1, is_negated := false, stack_depth := 1 } ],
      n_in_use := 0 }]⟩

def c5_stack : List Assignment :=
  [{ literal_name := 1, oldval := -1, newval := 1, stack_depth := 1 }]

/-- C5: the claim states that every assigned variable has exactly one
stack entry, unit propagation pushing a `UNIT` entry at depth `top + 1`.
After the first driver iteration on `(NOT 1 OR 2)` — decision `1 := TRUE`
plus the unit propagation of `2` — variable 2 is assigned, yet the stack
holds exactly the one decision entry for variable 1: unit propagation
pushed nothing. -/
theorem c5_counterexample :
    dpll_loop 1 .choose c3_f0 [] [] =
      .outOfFuel c5_f2 c5_stack
        ["cycle head\n", "NOT 1 OR ", "2 \n", "============\n\n",
         "true val works 1\n", "2 \n", "============\n\n",
         "true val works 2\n", "============\n\n"]
  ∧ (∃ l ∈ formula_literals c5_f2,
       l.name = 2 ∧ l.assigned_value ≠ VAL_UNASSIGNED)
  ∧ c5_stack.all (fun a => a.literal_name != 2) = true
  ∧ c5_stack.length = 1 := by
  refine ⟨by decide, by decide, by decide, by decide⟩

/-- C6: the claim expects verdict `SAT` on `p cnf 3 3` / `1 2 3 0` /
`-1 -2 0` / `-3 0` (clauses of lengths 3, 2, 1).  The parser sizes every
clause by the first one (3 literals) and drops clause boundaries, so the
six literals fill slots 0-5 of a 9-slot store: the third clause's header
and literal slots are never written, and the verdict depends on
indeterminate heap memory.  (The formula as written is satisfiable, as
the claim says.) -/
theorem c6_uninitialized_clause :
    (fill_store (fill_loop 3 3 c6_tokens 0 (initStore 9 3))).clause_n
      = [some 3, some 3, none]
  ∧ ((fill_store (fill_loop 3 3 c6_tokens 0 (initStore 9 3))).literals.drop 6)
      = [none, none, none]
  ∧ dpll c6_tokens 3 3 50 = .indeterminate
  ∧ spec_satisfiable 3 [[1, 2, 3], [-1, -2], [-3]] = true := by
  refine ⟨by decide, by decide, by decide, by decide⟩

/-- C7: the claim states that any literal with absolute value above the
declared `N` is rejected with a non-zero exit code, zero being reserved
for verdicts.  On `p cnf 3 1` / `-5 -5 -5 0` every literal has absolute
value 5 > 3, yet the range check `val > nvariables` ignores negative
literals: the input is accepted, solved to `SAT`, and the process exits 0.
Moreover even a rejected positive out-of-range literal (`p cnf 1 1` /
`2 0`) makes dpll return success, so that rejection also exits 0. -/
theorem c7_counterexample :
    (∃ v ∈ c7_tokens, v ≠ 0 ∧ 3 < v.natAbs)
  ∧ run_verdict (dpll c7_tokens 1 3 50) = some .sat
  ∧ main_ret (dpll c7_tokens 1 3 50) = some 0
  ∧ dpll [2, 0] 1 1 50 = .formatError ["Invalid file format\n"] 1
  ∧ main_ret (dpll [2, 0] 1 1 50) = some 0 := by
  refine ⟨by decide, rfl, by decide, by decide, by decide⟩

/-- C8: the claim states the query returns the `UNASSIGNED` variable with
the lowest name.  On the parsed store of `p cnf 2 1` / `2 1 0` both
variables are unassigned and the lowest name is 1, but the scan returns
2, the name at the lowest array index. -/
theorem c8_counterexample :
    parsed_formula [2, 1, 0] 1 2 = some c8_formula
  ∧ find_unassigned_literal c8_formula = 2
  ∧ (∃ l ∈ formula_literals c8_formula,
       LiteralIsInUse l = true ∧ l.assigned_value = VAL_UNASSIGNED ∧ l.name = 1)
  ∧ (2 : Nat) ≠ 1 := by
  refine ⟨by decide, by decide, by decide, by decide⟩

/-- C9: the claim states stdout is exactly one verdict line.  On
`p cnf 1 1` / `1 0` the verdict is `SAT`, but the `print_formula` debug
dumps (marked `TODO delete it` in the source) interleave nine further
printf emissions before it. -/
theorem c9_debug_output :
    dpll c9_tokens 1 1 50 =
      .ran (.done .sat
        ⟨[{ lits := [ { name := 1, assigned_value := 1, is_negated := false,
                        stack_depth := 1 } ],
            n_in_use := 0 }]⟩
        [{ literal_name := 1, oldval := -1, newval := 1, stack_depth := 1 }]
        ["cycle head\n", "1 \n", "============\n\n", "true val works 1\n",
         "============\n\n", "true val works 2\n", "============\n\n",
         "cycle head\n", "============\n\n", "SAT\n"]) 1
  ∧ (run_output (dpll c9_tokens 1 1 50)).getD [] ≠ ["SAT\n"] := by
  refine ⟨by decide, by decide⟩

/-- C10: inputs declaring more than 254 variables are rejected by main
with the message `Too many variables` and a non-zero exit status; inputs
declaring at most 254 variables pass the check and proceed to dpll. -/
theorem c10_variable_cap (nvariables ndisjunctions : Int) (tokens : List Int)
    (fuel : Nat) :
    (254 < nvariables →
       main_check_nvariables nvariables
           = some ("Internal error: Too many variables\n", -1)
         ∧ main_after_header nvariables ndisjunctions tokens fuel
           = (some (-1), ["Internal error: Too many variables\n"])
         ∧ ((-1 : Int) ≠ 0))
  ∧ (nvariables ≤ 254 →
       main_check_nvariables nvariables = none
         ∧ main_after_header nvariables ndisjunctions tokens fuel
           = (main_ret (dpll tokens ndisjunctions.toNat nvariables fuel), [])) := by
  constructor
  · intro h
    have e : main_check_nvariables nvariables
        = some ("Internal error: Too many variables\n", -1) := by
      unfold main_check_nvariables
      rw [if_pos h]
    refine ⟨e, ?_, by norm_num⟩
    unfold main_after_header
    rw [e]
  · intro h
    have e : main_check_nvariables nvariables = none := by
      unfold main_check_nvariables
      rw [if_neg (by omega)]
    refine ⟨e, ?_⟩
    unfold main_after_header
    rw [e]

/-- Witness for `c10_variable_cap` at the concrete counts 255 and 254. -/
theorem c10_variable_cap_witness :
    (main_check_nvariables 255 = some ("Internal error: Too many variables\n", -1)
      ∧ main_after_header 255 1 [1, 0] 5
          = (some (-1), ["Internal error: Too many variables\n"])
      ∧ ((-1 : Int) ≠ 0))
  ∧ (main_check_nvariables 254 = none
      ∧ main_after_header 254 1 [1, 0] 5
          = (main_ret (dpll [1, 0] (1 : Int).toNat 254 5), [])) :=
  ⟨(c10_variable_cap 255 1 [1, 0] 5).1 (by norm_num),
   (c10_variable_cap 254 1 [1, 0] 5).2 (by norm_num)⟩


/-! ## General (amended) characterizations -/

/-- The scan of `find_unassigned_literal` is `List.find?` over the flat
literal array, returning the found literal's name. -/
theorem ful_loop_find? (ls : List Literal) :
    ful_loop ls
      = ((ls.find? fun l =>
            LiteralIsInUse l && (l.assigned_value == VAL_UNASSIGNED)).map
          Literal.name).getD InvalidLiteralName := by
  induction ls with
  | nil => rfl
  | cons l rest ih =>
    by_cases hu : LiteralIsInUse l = true
    · by_cases hv : l.assigned_value = VAL_UNASSIGNED
      · rw [List.find?_cons_of_pos]
        · simp [ful_loop, hu, hv]
        · simp [hu, hv]
      · rw [List.find?_cons_of_neg]
        · simp [ful_loop, hu, hv, ih]
        · simp [hu, hv]
    · rw [List.find?_cons_of_neg]
      · simp [ful_loop, hu, ih]
      · simp [hu]

/-- C8 (amended): the query returns the name of the first in-use
`UNASSIGNED` literal occurrence in flat array order — lowest array index,
not lowest name — and, when no literal bears the reserved name 0, it
returns the sentinel exactly when no in-use literal is `UNASSIGNED`. -/
theorem c8_amended (f : Formula)
    (hnz : ∀ l ∈ formula_literals f, l.name ≠ InvalidLiteralName) :
    find_unassigned_literal f
      = (((formula_literals f).find? fun l =>
            LiteralIsInUse l && (l.assigned_value == VAL_UNASSIGNED)).map
          Literal.name).getD InvalidLiteralName
  ∧ (find_unassigned_literal f = InvalidLiteralName
      ↔ (formula_literals f).find? (fun l =>
            LiteralIsInUse l && (l.assigned_value == VAL_UNASSIGNED)) = none) := by
  refine ⟨ful_loop_find? _, ?_⟩
  rw [show find_unassigned_literal f = ful_loop (formula_literals f) from rfl,
    ful_loop_find? _]
  cases hf : (formula_literals f).find? fun l =>
      LiteralIsInUse l && (l.assigned_value == VAL_UNASSIGNED) with
  | none => simp
  | some l =>
    have hm : l ∈ formula_literals f := List.mem_of_find?_eq_some hf
    simpa using hnz l hm

/-- Witness for `c8_amended` on the parsed store of `p cnf 2 1` / `2 1 0`. -/
theorem c8_amended_witness :
    find_unassigned_literal c8_formula
      = (((formula_literals c8_formula).find? fun l =>
            LiteralIsInUse l && (l.assigned_value == VAL_UNASSIGNED)).map
          Literal.name).getD InvalidLiteralName
  ∧ (find_unassigned_literal c8_formula = InvalidLiteralName
      ↔ (formula_literals c8_formula).find? (fun l =>
            LiteralIsInUse l && (l.assigned_value == VAL_UNASSIGNED)) = none) :=
  c8_amended c8_formula (by decide)

/-- C5 (amended): unit propagation pushes nothing, so what remains true of
the stack discipline is the revert side: `revert_change` maps every
literal through `revert_literal`, and a literal tagged with the popped
entry's depth and bearing the popped entry's variable name is restored to
the recorded old value and retagged `IN_USE`. -/
theorem revert_change_lits (f : Formula) (a : Assignment) :
    formula_literals (revert_change f a)
      = (formula_literals f).map fun l => (revert_literal a l).1 := by
  show ((f.clauses.map (revert_clause a)).map Clause.lits).flatten
    = ((f.clauses.map Clause.lits).flatten).map fun l => (revert_literal a l).1
  rw [List.map_flatten, List.map_map, List.map_map]
  rfl

theorem c5_amended (f : Formula) (a : Assignment) :
    (formula_literals (revert_change f a)
       = (formula_literals f).map fun l => (revert_literal a l).1)
  ∧ ∀ l : Literal,
      l.stack_depth = a.stack_depth → l.name = a.literal_name →
      l.name ≠ InvalidLiteralName → a.stack_depth ≠ InvalidStackDepth →
      (revert_literal a l).1
        = { l with assigned_value := a.oldval,
                   stack_depth := InvalidStackDepth } := by
  constructor
  · exact revert_change_lits f a
  · intro l hd hn h0 h255
    have hiu : LiteralIsInUse l = false := by
      simp only [LiteralIsInUse, InvalidLiteralName, InvalidStackDepth]
      rw [Bool.or_eq_false_iff]
      constructor
      · simpa [hd] using h255
      · simpa using h0
    simp [revert_literal, hd, hiu, hn]

/-- Witness for `c5_amended` at the post-propagation state of
`(NOT 1 OR 2)` and its decision entry. -/
theorem c5_amended_witness :
    (formula_literals
        (revert_change c5_f2
          { literal_name := 1, oldval := -1, newval := 1, stack_depth := 1 })
       = (formula_literals c5_f2).map fun l =>
           (revert_literal
             { literal_name := 1, oldval := -1, newval := 1, stack_depth := 1 } l).1)
  ∧ (revert_literal
        { literal_name := 1, oldval := -1, newval := 1, stack_depth := 1 }
        { name := 1, assigned_value := 1, is_negated := true, stack_depth := 1 }).1
      = { name := 1, assigned_value := -1, is_negated := true,
          stack_depth := InvalidStackDepth } := by
  refine ⟨(c5_amended c5_f2 _).1, ?_⟩
  exact (c5_amended c5_f2
      { literal_name := 1, oldval := -1, newval := 1, stack_depth := 1 }).2
    { name := 1, assigned_value := 1, is_negated := true, stack_depth := 1 }
    rfl rfl (by decide) (by decide)

/-- C7 (amended): provided the non-zero tokens fit in the allocated
literal array, the fill loop rejects the stream exactly when some
non-zero token is a *positive* literal exceeding `nvariables` — negative
literals are never range-checked — and a rejection still makes dpll
return success, so main exits 0. -/
theorem c7_amended (nvariables : Int) (L : Nat) (tokens : List Int) (i : Nat)
    (s : Store)
    (hcap : (tokens.filter fun v => !(v == 0)).length + i ≤ s.literals.length) :
    ((∃ s' out, fill_loop nvariables L tokens i s = .formatError s' out)
       ↔ ∃ v ∈ tokens, v ≠ 0 ∧ nvariables < v)
  ∧ ∀ out, main_ret (.formatError out 1) = some 0 := by
  refine ⟨?_, fun out => rfl⟩
  induction tokens generalizing i s with
  | nil =>
    simp [fill_loop]
  | cons v rest ih =>
    by_cases hz : v = 0
    · subst hz
      have h1 : ((0 : Int) :: rest).filter (fun w => !(w == 0))
          = rest.filter (fun w => !(w == 0)) := by simp
      rw [h1] at hcap
      have h2 : fill_loop nvariables L ((0 : Int) :: rest) i s
          = fill_loop nvariables L rest i s := rfl
      rw [h2, ih i s hcap]
      simp
    · have hz' : (v == 0) = false := by simpa using hz
      by_cases hgt : nvariables < v
      · have h2 : fill_loop nvariables L (v :: rest) i s
            = .formatError s ["Invalid file format\n"] := by
          simp [fill_loop, hz', if_pos hgt]
        constructor
        · intro _
          exact ⟨v, by simp, hz, hgt⟩
        · intro _
          exact ⟨s, ["Invalid file format\n"], h2⟩
      · have hlen : ((v :: rest).filter fun w => !(w == 0)).length
            = (rest.filter fun w => !(w == 0)).length + 1 := by
          simp [hz]
        rw [hlen] at hcap
        have hi : i < s.literals.length := by omega
        have hstep : fill_loop nvariables L (v :: rest) i s
            = fill_loop nvariables L rest (i + 1)
                (store_write s L i
                  { name := (if v > 0 then v else v * (-1)).toNat % 256,
                    assigned_value := VAL_UNASSIGNED,
                    is_negated := decide (v < 0),
                    stack_depth := InvalidStackDepth }) := by
          show (if v == 0 then fill_loop nvariables L rest i s
            else
              let l : Literal :=
                { name := (if v > 0 then v else v * (-1)).toNat % 256,
                  assigned_value := VAL_UNASSIGNED,
                  is_negated := decide (v < 0),
                  stack_depth := InvalidStackDepth }
              if v > nvariables then .formatError s ["Invalid file format\n"]
              else if i < s.literals.length then
                fill_loop nvariables L rest (i + 1) (store_write s L i l)
              else .outOfBounds s) = _
          rw [hz']
          show (if v > nvariables then
                FillResult.formatError s ["Invalid file format\n"]
              else if i < s.literals.length then
                fill_loop nvariables L rest (i + 1)
                  (store_write s L i
                    { name := (if v > 0 then v else v * (-1)).toNat % 256,
                      assigned_value := VAL_UNASSIGNED,
                      is_negated := decide (v < 0),
                      stack_depth := InvalidStackDepth })
              else .outOfBounds s) = _
          rw [if_neg hgt, if_pos hi]
        rw [hstep, ih (i + 1) _ (by rw [store_write_literals_length]; omega)]
        constructor
        · intro ⟨w, hw, hwz, hwgt⟩
          exact ⟨w, by simp [hw], hwz, hwgt⟩
        · intro ⟨w, hw, hwz, hwgt⟩
          rcases List.mem_cons.mp hw with h | h
          · exact absurd (h ▸ hwgt) hgt
          · exact ⟨w, h, hwz, hwgt⟩

/-- Witness for `c7_amended` on the stream of `p cnf 3 1` / `-5 -5 -5 0`. -/
theorem c7_amended_witness :
    ((∃ s' out, fill_loop 3 3 c7_tokens 0 (initStore 3 1) = .formatError s' out)
       ↔ ∃ v ∈ c7_tokens, v ≠ 0 ∧ (3 : Int) < v)
  ∧ ∀ out, main_ret (.formatError out 1) = some 0 :=
  c7_amended 3 3 c7_tokens 0 (initStore 3 1) (by decide)


/-! ## Stepping equations of the propagation loop -/

theorem plv_step_skip (lname : Nat) (newv : Int) (d fuel j : Nat) (cl : Clause)
    (h : ((cl.lits.getD j default).name != lname
          || !(LiteralIsInUse (cl.lits.getD j default))) = true) :
    plv_clause_loop lname newv d (fuel + 1) j cl
      = plv_clause_loop lname newv d fuel (j + 1) cl := by
  simp only [plv_clause_loop]
  rw [if_pos h]

theorem plv_step_delete (lname : Nat) (newv : Int) (d fuel j : Nat)
    (cl : Clause) (l : Literal) (hl : cl.lits.getD j default = l)
    (h : (l.name != lname || !(LiteralIsInUse l)) = false)
    (ht : LiteralGivesTrue { l with assigned_value := newv } = true) :
    plv_clause_loop lname newv d (fuel + 1) j cl
      = plv_clause_loop lname newv d fuel (j + 1)
          (delete_clause_from_formula
            { cl with lits := cl.lits.set j { l with assigned_value := newv } }
            d) := by
  subst hl
  simp only [plv_clause_loop]
  rw [if_neg (ne_true_of_eq_false h), if_pos ht]

theorem plv_step_conflict (lname : Nat) (newv : Int) (d fuel j : Nat)
    (cl : Clause) (l : Literal) (hl : cl.lits.getD j default = l)
    (h : (l.name != lname || !(LiteralIsInUse l)) = false)
    (ht : LiteralGivesTrue { l with assigned_value := newv } = false)
    (he : clause_is_empty
        { cl with lits := cl.lits.set j { l with assigned_value := newv } }
      = true) :
    plv_clause_loop lname newv d (fuel + 1) j cl
      = ({ lits := cl.lits.set j { l with assigned_value := newv, stack_depth := d },
           n_in_use := cl.n_in_use - 1 }, false) := by
  subst hl
  simp only [plv_clause_loop]
  rw [if_neg (ne_true_of_eq_false h), if_neg (ne_true_of_eq_false ht), if_pos he]

theorem plv_step_shrink (lname : Nat) (newv : Int) (d fuel j : Nat)
    (cl : Clause) (l : Literal) (hl : cl.lits.getD j default = l)
    (h : (l.name != lname || !(LiteralIsInUse l)) = false)
    (ht : LiteralGivesTrue { l with assigned_value := newv } = false)
    (he : clause_is_empty
        { cl with lits := cl.lits.set j { l with assigned_value := newv } }
      = false) :
    plv_clause_loop lname newv d (fuel + 1) j cl
      = plv_clause_loop lname newv d fuel (j + 1)
          { lits := cl.lits.set j { l with assigned_value := newv, stack_depth := d },
            n_in_use := cl.n_in_use - 1 } := by
  subst hl
  simp only [plv_clause_loop]
  rw [if_neg (ne_true_of_eq_false h), if_neg (ne_true_of_eq_false ht), if_neg (ne_true_of_eq_false he)]


/-! ## Per-step relation lemmas -/

theorem shrink_step_rel (d : Nat) (h255 : d ≠ InvalidStackDepth)
    (cl : Clause) (j : Nat) (newv : Int) (l : Literal)
    (hl : cl.lits.getD j default = l) (hj : j < cl.lits.length)
    (hnz : ∀ x ∈ cl.lits, x.name ≠ InvalidLiteralName)
    (hu : LiteralIsInUse l = true)
    (hcnt : clause_counts_ok cl) :
    ClauseRel d cl
      { lits := cl.lits.set j { l with assigned_value := newv, stack_depth := d },
        n_in_use := cl.n_in_use - 1 }
  ∧ clause_counts_ok
      { lits := cl.lits.set j { l with assigned_value := newv, stack_depth := d },
        n_in_use := cl.n_in_use - 1 } := by
  have hmem : l ∈ cl.lits := by
    rw [← hl, List.getD_eq_getElem cl.lits default hj]
    exact List.getElem_mem hj
  have hname : l.name ≠ InvalidLiteralName := hnz l hmem
  have hdep : l.stack_depth = InvalidStackDepth := (isInUse_iff hname).mp hu
  constructor
  · refine forall₂_set_right default (clauseRel_refl d cl) j _ fun hj2 => ?_
    rw [hl]
    exact ⟨rfl, rfl, Or.inr ⟨hdep, rfl⟩⟩
  · have hx : LiteralIsInUse
        { l with assigned_value := newv, stack_depth := d } = false := by
      simp [LiteralIsInUse, hname, h255]
    have hc := countP_set_true_false LiteralIsInUse default cl.lits j
      { l with assigned_value := newv, stack_depth := d } hj
      (by rw [hl]; exact hu) hx
    unfold clause_counts_ok at hcnt ⊢
    simp only [] at hcnt ⊢
    omega

theorem delete_set_step_rel (d : Nat) (h255 : d ≠ InvalidStackDepth)
    (cl : Clause) (j : Nat) (newv : Int) (l : Literal)
    (hl : cl.lits.getD j default = l) (hj : j < cl.lits.length)
    (hnz : ∀ x ∈ cl.lits, x.name ≠ InvalidLiteralName)
    (hu : LiteralIsInUse l = true) :
    ClauseRel d cl
      (delete_clause_from_formula
        { cl with lits := cl.lits.set j { l with assigned_value := newv } } d)
  ∧ clause_counts_ok
      (delete_clause_from_formula
        { cl with lits := cl.lits.set j { l with assigned_value := newv } } d) := by
  have hmem : l ∈ cl.lits := by
    rw [← hl, List.getD_eq_getElem cl.lits default hj]
    exact List.getElem_mem hj
  have hname : l.name ≠ InvalidLiteralName := hnz l hmem
  have hdep : l.stack_depth = InvalidStackDepth := (isInUse_iff hname).mp hu
  have hmapset : (cl.lits.set j { l with assigned_value := newv }).map
        (fun x => if LiteralIsInUse x then { x with stack_depth := d } else x)
      = (cl.lits.map
          (fun x => if LiteralIsInUse x then { x with stack_depth := d } else x)).set j
          (if LiteralIsInUse { l with assigned_value := newv } then
            { l with assigned_value := newv, stack_depth := d }
          else { l with assigned_value := newv }) :=
    List.map_set ..
  have hu' : LiteralIsInUse { l with assigned_value := newv } = true := hu
  constructor
  · show List.Forall₂ (LitRel d) cl.lits
      ((cl.lits.set j { l with assigned_value := newv }).map
        (fun x => if LiteralIsInUse x then { x with stack_depth := d } else x))
    rw [hmapset, hu']
    refine forall₂_set_right default ?_ j _ fun hj2 => ?_
    · refine forall₂_map_self _ cl.lits fun x hx => ?_
      by_cases hux : LiteralIsInUse x = true
      · rw [if_pos hux]
        exact ⟨rfl, rfl, Or.inr ⟨(isInUse_iff (hnz x hx)).mp hux, rfl⟩⟩
      · rw [if_neg hux]
        exact litRel_refl d x
    · simp only [if_true]
      rw [hl]
      exact ⟨rfl, rfl, Or.inr ⟨hdep, rfl⟩⟩
  · show (0 : Int)
      = (((cl.lits.set j { l with assigned_value := newv }).map
            (fun x => if LiteralIsInUse x then { x with stack_depth := d } else x)).countP
          LiteralIsInUse : Int)
    have hz : ((cl.lits.set j { l with assigned_value := newv }).map
        (fun x => if LiteralIsInUse x then { x with stack_depth := d } else x)).countP
          LiteralIsInUse = 0 := by
      refine List.countP_eq_zero.mpr fun y hy => ?_
      obtain ⟨z, hz, rfl⟩ := List.mem_map.mp hy
      have hzname : z.name ≠ InvalidLiteralName := by
        rcases List.mem_or_eq_of_mem_set hz with hz' | rfl
        · exact hnz z hz'
        · exact hname
      by_cases huz : LiteralIsInUse z = true
      · rw [if_pos huz]
        simp [LiteralIsInUse, hzname, h255]
      · rw [if_neg huz]
        simpa using huz
    rw [hz]
    simp

/-! ## The propagation loop preserves the relation and the counters -/

theorem plv_clause_loop_rel (lname : Nat) (newv : Int) (d : Nat)
    (h255 : d ≠ InvalidStackDepth) :
    ∀ (fuel j : Nat) (cl : Clause), j + fuel ≤ cl.lits.length →
      (∀ x ∈ cl.lits, x.name ≠ InvalidLiteralName) →
      clause_counts_ok cl →
      ClauseRel d cl (plv_clause_loop lname newv d fuel j cl).1
      ∧ clause_counts_ok (plv_clause_loop lname newv d fuel j cl).1 := by
  intro fuel
  induction fuel with
  | zero =>
    intro j cl _ _ hcnt
    exact ⟨clauseRel_refl d cl, hcnt⟩
  | succ fuel ih =>
    intro j cl hlen hnz hcnt
    have hj : j < cl.lits.length := by omega
    by_cases hg : ((cl.lits.getD j default).name != lname
        || !(LiteralIsInUse (cl.lits.getD j default))) = true
    · rw [plv_step_skip lname newv d fuel j cl hg]
      exact ih (j + 1) cl (by omega) hnz hcnt
    · have hg' : ((cl.lits.getD j default).name != lname
          || !(LiteralIsInUse (cl.lits.getD j default))) = false :=
        Bool.eq_false_iff.mpr hg
      have hcomp := Bool.or_eq_false_iff.mp hg'
      have hu : LiteralIsInUse (cl.lits.getD j default) = true := by
        simpa using hcomp.2
      by_cases ht : LiteralGivesTrue
          { (cl.lits.getD j default) with assigned_value := newv } = true
      · rw [plv_step_delete lname newv d fuel j cl _ rfl hg' ht]
        obtain ⟨hrel1, hcnt1⟩ :=
          delete_set_step_rel d h255 cl j newv _ rfl hj hnz hu
        have hlen1 := List.Forall₂.length_eq hrel1
        have hnz1 := clauseRel_names hrel1 hnz
        obtain ⟨hrel2, hcnt2⟩ := ih (j + 1) _ (by omega) hnz1 hcnt1
        exact ⟨clauseRel_trans h255 hrel1 hrel2, hcnt2⟩
      · have ht' : LiteralGivesTrue
            { (cl.lits.getD j default) with assigned_value := newv } = false :=
          Bool.eq_false_iff.mpr ht
        by_cases he : clause_is_empty
            { cl with
              lits := cl.lits.set j { (cl.lits.getD j default) with assigned_value := newv } } = true
        · rw [plv_step_conflict lname newv d fuel j cl _ rfl hg' ht' he]
          exact shrink_step_rel d h255 cl j newv _ rfl hj hnz hu hcnt
        · have he' := Bool.eq_false_iff.mpr he
          rw [plv_step_shrink lname newv d fuel j cl _ rfl hg' ht' he']
          obtain ⟨hrel1, hcnt1⟩ :=
            shrink_step_rel d h255 cl j newv _ rfl hj hnz hu hcnt
          have hlen1 := List.Forall₂.length_eq hrel1
          have hnz1 := clauseRel_names hrel1 hnz
          obtain ⟨hrel2, hcnt2⟩ := ih (j + 1) _ (by omega) hnz1 hcnt1
          exact ⟨clauseRel_trans h255 hrel1 hrel2, hcnt2⟩


theorem names_ok_clause {f : Formula} (h : names_ok f) {cl : Clause}
    (hcl : cl ∈ f.clauses) : ∀ x ∈ cl.lits, x.name ≠ InvalidLiteralName := by
  intro x hx
  refine h x ?_
  unfold formula_literals
  exact List.mem_flatten.mpr ⟨cl.lits, List.mem_map_of_mem Clause.lits hcl, hx⟩

theorem formulaRel_names {d : Nat} {f0 f : Formula} (h : FormulaRel d f0 f)
    (hnz : names_ok f0) : names_ok f := by
  intro l hl
  unfold formula_literals at hl
  obtain ⟨ls, hls, hl⟩ := List.mem_flatten.mp hl
  obtain ⟨cl, hcl, rfl⟩ := List.mem_map.mp hls
  obtain ⟨c0, hc0, hcr⟩ := forall₂_mem_right h cl hcl
  obtain ⟨l0, hl0, hlr⟩ := forall₂_mem_right hcr l hl
  rw [hlr.1]
  exact names_ok_clause hnz hc0 l0 hl0

theorem plv_clauses_rel (lname : Nat) (newv : Int) (d : Nat)
    (h255 : d ≠ InvalidStackDepth) :
    ∀ (cs : List Clause),
      (∀ cl ∈ cs, (∀ x ∈ cl.lits, x.name ≠ InvalidLiteralName)
        ∧ clause_counts_ok cl) →
      List.Forall₂ (ClauseRel d) cs (plv_clauses lname newv d cs).1
      ∧ ∀ cl ∈ (plv_clauses lname newv d cs).1, clause_counts_ok cl := by
  intro cs
  induction cs with
  | nil =>
    intro _
    exact ⟨List.Forall₂.nil, by simp [plv_clauses]⟩
  | cons c rest ih =>
    intro h
    have hc := h c (by simp)
    have hrest : ∀ cl ∈ rest,
        (∀ x ∈ cl.lits, x.name ≠ InvalidLiteralName) ∧ clause_counts_ok cl :=
      fun cl hcl => h cl (List.mem_cons_of_mem c hcl)
    obtain ⟨hrel1, hcnt1⟩ := plv_clause_loop_rel lname newv d h255
      c.lits.length 0 c (by omega) hc.1 hc.2
    cases hres : plv_clause_loop lname newv d c.lits.length 0 c with
    | mk c' ok =>
      rw [hres] at hrel1 hcnt1
      cases ok with
      | true =>
        obtain ⟨hrel2, hcnt2⟩ := ih hrest
        simp only [plv_clauses, hres]
        constructor
        · exact List.Forall₂.cons hrel1 hrel2
        · intro cl hcl
          rcases List.mem_cons.mp hcl with rfl | hcl
          · exact hcnt1
          · exact hcnt2 cl hcl
      | false =>
        simp only [plv_clauses, hres]
        constructor
        · exact List.Forall₂.cons hrel1
            (List.forall₂_same.mpr fun x _ => clauseRel_refl d x)
        · intro cl hcl
          rcases List.mem_cons.mp hcl with rfl | hcl
          · exact hcnt1
          · exact (hrest cl hcl).2

theorem propagate_literal_value_rel (f : Formula) (lname : Nat) (newv : Int)
    (d : Nat) (h255 : d ≠ InvalidStackDepth)
    (hnz : names_ok f) (hcnt : counts_ok f) :
    FormulaRel d f (propagate_literal_value f lname newv d).1
  ∧ counts_ok (propagate_literal_value f lname newv d).1 := by
  have h := plv_clauses_rel lname newv d h255 f.clauses
    (fun cl hcl => ⟨names_ok_clause hnz hcl, hcnt cl hcl⟩)
  exact ⟨h.1, h.2⟩

theorem up_clauses_rel (target : Nat) (value : Bool) (d : Nat)
    (h255 : d ≠ InvalidStackDepth) :
    ∀ (cs : List Clause),
      (∀ cl ∈ cs, (∀ x ∈ cl.lits, x.name ≠ InvalidLiteralName)
        ∧ clause_counts_ok cl) →
      List.Forall₂ (ClauseRel d) cs (up_clauses target value d cs).1
      ∧ ∀ cl ∈ (up_clauses target value d cs).1, clause_counts_ok cl := by
  intro cs
  induction cs with
  | nil =>
    intro _
    exact ⟨List.Forall₂.nil, by simp [up_clauses]⟩
  | cons c rest ih =>
    intro h
    have hc := h c (by simp)
    have hrest : ∀ cl ∈ rest,
        (∀ x ∈ cl.lits, x.name ≠ InvalidLiteralName) ∧ clause_counts_ok cl :=
      fun cl hcl => h cl (List.mem_cons_of_mem c hcl)
    by_cases hz : (c.n_in_use == 0) = true
    · obtain ⟨hrel2, hcnt2⟩ := ih hrest
      simp only [up_clauses, hz, if_true]
      constructor
      · exact List.Forall₂.cons (clauseRel_refl d c) hrel2
      · intro cl hcl
        rcases List.mem_cons.mp hcl with rfl | hcl
        · exact hc.2
        · exact hcnt2 cl hcl
    · have hz' := Bool.eq_false_iff.mpr hz
      obtain ⟨hrel1, hcnt1⟩ := plv_clause_loop_rel target (boolToVal value) d
        h255 c.lits.length 0 c (by omega) hc.1 hc.2
      cases hres : plv_clause_loop target (boolToVal value) d c.lits.length 0 c with
      | mk c' ok =>
        rw [hres] at hrel1 hcnt1
        cases ok with
        | true =>
          obtain ⟨hrel2, hcnt2⟩ := ih hrest
          simp only [up_clauses, hz', hres]
          constructor
          · exact List.Forall₂.cons hrel1 hrel2
          · intro cl hcl
            rcases List.mem_cons.mp hcl with rfl | hcl
            · exact hcnt1
            · exact hcnt2 cl hcl
        | false =>
          simp only [up_clauses, hz', hres]
          constructor
          · exact List.Forall₂.cons hrel1
              (List.forall₂_same.mpr fun x _ => clauseRel_refl d x)
          · intro cl hcl
            rcases List.mem_cons.mp hcl with rfl | hcl
            · exact hcnt1
            · exact (hrest cl hcl).2

theorem unit_propagate_rel (d : Nat) (h255 : d ≠ InvalidStackDepth) :
    ∀ (fuel : Nat) (f : Formula), names_ok f → counts_ok f →
      FormulaRel d f (unit_propagate d fuel f).1
      ∧ counts_ok (unit_propagate d fuel f).1 := by
  intro fuel
  induction fuel with
  | zero =>
    intro f _ hcnt
    exact ⟨formulaRel_refl d f, hcnt⟩
  | succ fuel ih =>
    intro f hnz hcnt
    cases hfu : find_unit_clause f.clauses with
    | none =>
      simp only [unit_propagate, hfu]
      exact ⟨formulaRel_refl d f, hcnt⟩
    | some tv =>
      by_cases htv : (tv.1 == InvalidLiteralName) = true
      · simp only [unit_propagate, hfu, htv, if_true]
        exact ⟨formulaRel_refl d f, hcnt⟩
      · have htv' := Bool.eq_false_iff.mpr htv
        obtain ⟨hrel1, hcnt1⟩ := up_clauses_rel tv.1 tv.2 d h255 f.clauses
          (fun cl hcl => ⟨names_ok_clause hnz hcl, hcnt cl hcl⟩)
        have hrelF : FormulaRel d f ⟨(up_clauses tv.1 tv.2 d f.clauses).1⟩ := hrel1
        have hcntF : counts_ok ⟨(up_clauses tv.1 tv.2 d f.clauses).1⟩ := hcnt1
        cases hok : (up_clauses tv.1 tv.2 d f.clauses).2 with
        | true =>
          simp only [unit_propagate, hfu, htv', hok]
          obtain ⟨hrel2, hcnt2⟩ := ih ⟨(up_clauses tv.1 tv.2 d f.clauses).1⟩
            (formulaRel_names hrelF hnz) hcntF
          exact ⟨formulaRel_trans h255 hrelF hrel2, hcnt2⟩
        | false =>
          simp only [unit_propagate, hfu, htv', hok]
          exact ⟨hrelF, hcntF⟩


/-! ## Reverting a fresh depth restores the store -/

theorem revert_literal_restore {d : Nat} (h255 : d ≠ InvalidStackDepth)
    (a : Assignment) (hd : a.stack_depth = d) {l0 l : Literal}
    (hrel : LitRel d l0 l) (hfresh : l0.stack_depth ≠ d)
    (h0 : l0.name ≠ InvalidLiteralName) :
    RevertedRel a l0 (revert_literal a l).1
  ∧ ((revert_literal a l).2 + (if LiteralIsInUse l then 1 else 0) : Int)
      = (if LiteralIsInUse l0 then 1 else 0) := by
  obtain ⟨hn, hg, hk⟩ := hrel
  rcases hk with ⟨hdep, hval⟩ | ⟨hu0, htag⟩
  · have hne : (l.stack_depth != a.stack_depth) = true := by
      rw [hdep, hd]
      simpa using hfresh
    have hres : revert_literal a l = (l, 0) := by
      unfold revert_literal
      rw [if_pos hne]
    rw [hres]
    refine ⟨⟨hn, hg, hdep, fun _ _ => hval⟩, ?_⟩
    have hsame : LiteralIsInUse l = LiteralIsInUse l0 := by
      simp [LiteralIsInUse, hn, hdep]
    rw [hsame]
    simp
  · have hbne : (l.stack_depth != a.stack_depth) = false := by
      simp [htag, hd]
    have hname0 : l.name ≠ InvalidLiteralName := by
      rw [hn]
      exact h0
    have hiu : LiteralIsInUse l = false := by
      simp [LiteralIsInUse, hname0, htag, h255]
    have hiu0 : LiteralIsInUse l0 = true := by
      simp [LiteralIsInUse, hu0]
    by_cases hnm : (l.name == a.literal_name) = true
    · have hres : revert_literal a l
          = ({ l with stack_depth := InvalidStackDepth, assigned_value := a.oldval }, 1) := by
        unfold revert_literal
        rw [if_neg (ne_true_of_eq_false hbne)]
        simp only [hiu, Bool.not_false, if_true, hnm]
      rw [hres]
      refine ⟨⟨hn, hg, hu0.symm, fun _ hv => ?_⟩, ?_⟩
      · rw [hv]
      · rw [hiu, hiu0]
        simp
    · have hnm' : (l.name == a.literal_name) = false := Bool.eq_false_iff.mpr hnm
      have hres : revert_literal a l
          = ({ l with stack_depth := InvalidStackDepth }, 1) := by
        unfold revert_literal
        rw [if_neg (ne_true_of_eq_false hbne)]
        simp only [hiu, Bool.not_false, if_true, hnm']
        simp
      rw [hres]
      refine ⟨⟨hn, hg, hu0.symm, fun hv _ => ?_⟩, ?_⟩
      · exfalso
        apply hnm
        rw [hn, hv]
        simp
      · rw [hiu, hiu0]
        simp

theorem revert_lits_restore {d : Nat} (h255 : d ≠ InvalidStackDepth)
    (a : Assignment) (hd : a.stack_depth = d) :
    ∀ (ls0 ls : List Literal), List.Forall₂ (LitRel d) ls0 ls →
      (∀ x ∈ ls0, x.stack_depth ≠ d) →
      (∀ x ∈ ls0, x.name ≠ InvalidLiteralName) →
      List.Forall₂ (RevertedRel a) ls0 (ls.map fun l => (revert_literal a l).1)
      ∧ ((ls.map fun l => (revert_literal a l).2).sum
            + (ls.countP LiteralIsInUse : Int)
          = (ls0.countP LiteralIsInUse : Int)) := by
  intro ls0
  induction ls0 with
  | nil =>
    intro ls h _ _
    cases h
    exact ⟨List.Forall₂.nil, by simp⟩
  | cons x0 t0 ih =>
    intro ls h hfresh hnz
    cases ls with
    | nil => cases h
    | cons x t =>
      cases h with
      | cons hx ht =>
        obtain ⟨hF, hS⟩ := ih t ht
          (fun y hy => hfresh y (List.mem_cons_of_mem _ hy))
          (fun y hy => hnz y (List.mem_cons_of_mem _ hy))
        obtain ⟨hR, hC⟩ := revert_literal_restore h255 a hd hx
          (hfresh x0 (by simp)) (hnz x0 (by simp))
        refine ⟨List.Forall₂.cons hR hF, ?_⟩
        simp only [List.map_cons, List.sum_cons, List.countP_cons, Nat.cast_add,
          Nat.cast_ite, Nat.cast_one, Nat.cast_zero]
        linarith [hS, hC]


theorem depth_fresh_clause {d : Nat} {f : Formula} (h : depth_fresh d f)
    {cl : Clause} (hcl : cl ∈ f.clauses) : ∀ x ∈ cl.lits, x.stack_depth ≠ d := by
  intro x hx
  refine h x ?_
  unfold formula_literals
  exact List.mem_flatten.mpr ⟨cl.lits, List.mem_map_of_mem Clause.lits hcl, hx⟩

theorem revert_clause_restore {d : Nat} (h255 : d ≠ InvalidStackDepth)
    (a : Assignment) (hd : a.stack_depth = d) (c0 c : Clause)
    (hrel : ClauseRel d c0 c)
    (hfresh : ∀ x ∈ c0.lits, x.stack_depth ≠ d)
    (hnz : ∀ x ∈ c0.lits, x.name ≠ InvalidLiteralName)
    (hcnt0 : clause_counts_ok c0) (hcnt : clause_counts_ok c) :
    List.Forall₂ (RevertedRel a) c0.lits (revert_clause a c).lits
  ∧ (revert_clause a c).n_in_use = c0.n_in_use := by
  obtain ⟨hF, hS⟩ := revert_lits_restore h255 a hd c0.lits c.lits hrel hfresh hnz
  refine ⟨hF, ?_⟩
  show c.n_in_use + (c.lits.map fun l => (revert_literal a l).2).sum = c0.n_in_use
  unfold clause_counts_ok at hcnt0 hcnt
  linarith [hS]

theorem revert_clauses_restore {d : Nat} (h255 : d ≠ InvalidStackDepth)
    (a : Assignment) (hd : a.stack_depth = d) :
    ∀ (cs0 cs : List Clause), List.Forall₂ (ClauseRel d) cs0 cs →
      (∀ c0 ∈ cs0, (∀ x ∈ c0.lits, x.stack_depth ≠ d)
        ∧ (∀ x ∈ c0.lits, x.name ≠ InvalidLiteralName) ∧ clause_counts_ok c0) →
      (∀ c ∈ cs, clause_counts_ok c) →
      List.Forall₂
        (fun c0 c3 => List.Forall₂ (RevertedRel a) c0.lits c3.lits
          ∧ c3.n_in_use = c0.n_in_use)
        cs0 (cs.map (revert_clause a)) := by
  intro cs0
  induction cs0 with
  | nil =>
    intro cs h _ _
    cases h
    exact List.Forall₂.nil
  | cons c0 t0 ih =>
    intro cs h h0 hc
    cases cs with
    | nil => cases h
    | cons c t =>
      cases h with
      | cons hx ht =>
        have hh := h0 c0 (by simp)
        refine List.Forall₂.cons
          (revert_clause_restore h255 a hd c0 c hx hh.1 hh.2.1 hh.2.2
            (hc c (by simp)))
          (ih t ht (fun x hx2 => h0 x (List.mem_cons_of_mem _ hx2))
            (fun x hx2 => hc x (List.mem_cons_of_mem _ hx2)))

theorem forall₂_imp_mem {R S : α → β → Prop} :
    ∀ {l : List α} {m : List β}, List.Forall₂ R l m →
      (∀ a ∈ l, ∀ b, R a b → S a b) → List.Forall₂ S l m := by
  intro l m h
  induction h with
  | nil => intro _; exact List.Forall₂.nil
  | cons hx ht ih =>
    intro hmem
    exact List.Forall₂.cons (hmem _ (by simp) _ hx)
      (ih fun x hx2 => hmem x (List.mem_cons_of_mem _ hx2))

theorem forall₂_map_both {R : γ → δ → Prop} (g : α → γ) (k : β → δ) :
    ∀ {l : List α} {m : List β},
      List.Forall₂ (fun x y => R (g x) (k y)) l m →
      List.Forall₂ R (l.map g) (m.map k) := by
  intro l m h
  induction h with
  | nil => exact List.Forall₂.nil
  | cons hx ht ih => exact List.Forall₂.cons hx ih

theorem forall₂_map_eq {g : α → γ} {k : β → γ} :
    ∀ {l : List α} {m : List β},
      List.Forall₂ (fun x y => k y = g x) l m → m.map k = l.map g := by
  intro l m h
  induction h with
  | nil => rfl
  | cons hx ht ih => simp [hx, ih]

/-- C3 (amended): pushing `lname := newv` at a fresh depth `d`, running
`propagate_literal_value` and any number of `unit_propagate` rounds at
that depth, then reverting depth `d`, restores every literal's name,
negation flag and stack-depth tag and every clause's `n_in_use` counter
exactly; the assigned values are restored for the literals of the pushed
variable (which held the recorded old value), but not for the literals
unit propagation assigned, so the store is not bitwise identical. -/
theorem c3_roundtrip_amended (f : Formula) (lname : Nat)
    (newv oldv newv2 : Int) (d ufuel : Nat)
    (h255 : d ≠ InvalidStackDepth) (hnz : names_ok f) (hcnt : counts_ok f)
    (hfresh : depth_fresh d f)
    (hold : ∀ l ∈ formula_literals f, l.name = lname →
      l.assigned_value = oldv) :
    List.Forall₂
      (fun l0 l3 => l3.name = l0.name ∧ l3.is_negated = l0.is_negated ∧
        l3.stack_depth = l0.stack_depth ∧
        (l0.name = lname → l3.assigned_value = l0.assigned_value))
      (formula_literals f)
      (formula_literals (revert_change
        (unit_propagate d ufuel (propagate_literal_value f lname newv d).1).1
        { literal_name := lname, oldval := oldv, newval := newv2,
          stack_depth := d }))
  ∧ (revert_change
       (unit_propagate d ufuel (propagate_literal_value f lname newv d).1).1
       { literal_name := lname, oldval := oldv, newval := newv2,
         stack_depth := d }).clauses.map Clause.n_in_use
      = f.clauses.map Clause.n_in_use := by
  obtain ⟨hrel1, hcnt1⟩ := propagate_literal_value_rel f lname newv d h255 hnz hcnt
  obtain ⟨hrel2, hcnt2⟩ := unit_propagate_rel d h255 ufuel _
    (formulaRel_names hrel1 hnz) hcnt1
  have hrel12 : FormulaRel d f
      (unit_propagate d ufuel (propagate_literal_value f lname newv d).1).1 :=
    formulaRel_trans h255 hrel1 hrel2
  have hR := revert_clauses_restore h255
    { literal_name := lname, oldval := oldv, newval := newv2, stack_depth := d }
    rfl f.clauses _ hrel12
    (fun c0 hc0 => ⟨depth_fresh_clause hfresh hc0, names_ok_clause hnz hc0,
      hcnt c0 hc0⟩)
    (fun c hc => hcnt2 c hc)
  constructor
  · have hlits : List.Forall₂
        (RevertedRel { literal_name := lname, oldval := oldv, newval := newv2, stack_depth := d })
        (formula_literals f)
        (formula_literals (revert_change
          (unit_propagate d ufuel (propagate_literal_value f lname newv d).1).1
          { literal_name := lname, oldval := oldv, newval := newv2,
            stack_depth := d })) := by
      unfold formula_literals
      refine List.rel_flatten ?_
      exact forall₂_map_both Clause.lits Clause.lits
        (List.Forall₂.imp (fun _ _ h => h.1) hR)
    refine forall₂_imp_mem hlits fun l0 hl0 l3 hr => ?_
    exact ⟨hr.1, hr.2.1, hr.2.2.1, fun hname =>
      hr.2.2.2 hname (hold l0 hl0 hname)⟩
  · exact forall₂_map_eq (List.Forall₂.imp (fun _ _ h => h.2) hR)

/-- Witness for `c3_roundtrip_amended` on the store of `p cnf 2 1` /
`-1 2 0` with the decision `1 := TRUE` at depth 1. -/
theorem c3_roundtrip_amended_witness :
    List.Forall₂
      (fun l0 l3 => l3.name = l0.name ∧ l3.is_negated = l0.is_negated ∧
        l3.stack_depth = l0.stack_depth ∧
        (l0.name = 1 → l3.assigned_value = l0.assigned_value))
      (formula_literals c3_f0)
      (formula_literals (revert_change
        (unit_propagate 1 (totalInUse (propagate_literal_value c3_f0 1 VAL_TRUE 1).1 + 1)
          (propagate_literal_value c3_f0 1 VAL_TRUE 1).1).1
        { literal_name := 1, oldval := VAL_UNASSIGNED, newval := VAL_TRUE,
          stack_depth := 1 }))
  ∧ (revert_change
       (unit_propagate 1 (totalInUse (propagate_literal_value c3_f0 1 VAL_TRUE 1).1 + 1)
         (propagate_literal_value c3_f0 1 VAL_TRUE 1).1).1
       { literal_name := 1, oldval := VAL_UNASSIGNED, newval := VAL_TRUE,
         stack_depth := 1 }).clauses.map Clause.n_in_use
      = c3_f0.clauses.map Clause.n_in_use :=
  c3_roundtrip_amended c3_f0 1 VAL_TRUE VAL_UNASSIGNED VAL_TRUE 1 _
    (by decide)
    (by unfold names_ok; decide)
    (by unfold counts_ok clause_counts_ok; decide)
    (by unfold depth_fresh; decide)
    (by decide)


/-! ## Auxiliary facts for the termination proof -/

theorem formulaRel_lits {d : Nat} {f0 f : Formula} (h : FormulaRel d f0 f) :
    List.Forall₂ (LitRel d) (formula_literals f0) (formula_literals f) := by
  unfold formula_literals
  refine List.rel_flatten ?_
  exact forall₂_map_both Clause.lits Clause.lits h

theorem formulaRel_names_map {d : Nat} {f0 f : Formula} (h : FormulaRel d f0 f) :
    (formula_literals f).map Literal.name
      = (formula_literals f0).map Literal.name :=
  forall₂_map_eq (List.Forall₂.imp (fun _ _ hl => hl.1) (formulaRel_lits h))

theorem isInUse_eq_depth (l : Literal) (h0 : l.name ≠ InvalidLiteralName) :
    LiteralIsInUse l = (l.stack_depth == InvalidStackDepth) := by
  simp [LiteralIsInUse, h0]

theorem revert_literal_name (a : Assignment) (l : Literal) :
    (revert_literal a l).1.name = l.name := by
  unfold revert_literal
  split
  · rfl
  · split <;> (dsimp only; split <;> rfl)

theorem revert_literal_neg (a : Assignment) (l : Literal) :
    (revert_literal a l).1.is_negated = l.is_negated := by
  unfold revert_literal
  split
  · rfl
  · split <;> (dsimp only; split <;> rfl)

theorem revert_literal_fields (a : Assignment) (l : Literal)
    (h0 : l.name ≠ InvalidLiteralName)
    (h255 : a.stack_depth ≠ InvalidStackDepth) :
    (revert_literal a l).1.stack_depth
        = (if l.stack_depth = a.stack_depth then InvalidStackDepth
           else l.stack_depth)
  ∧ (revert_literal a l).2 = (if l.stack_depth = a.stack_depth then 1 else 0) := by
  by_cases hd : l.stack_depth = a.stack_depth
  · have hiu : LiteralIsInUse l = false := by
      rw [isInUse_eq_depth l h0, hd]
      simpa using h255
    have hbne : (l.stack_depth != a.stack_depth) = false := by simp [hd]
    have hres : (revert_literal a l).1.stack_depth = InvalidStackDepth
        ∧ (revert_literal a l).2 = 1 := by
      unfold revert_literal
      rw [if_neg (ne_true_of_eq_false hbne)]
      simp only [hiu, Bool.not_false, if_true]
      split <;> simp
    rw [if_pos hd, if_pos hd]
    exact hres
  · have hbne : (l.stack_depth != a.stack_depth) = true := by simpa using hd
    have hres : (revert_literal a l).1.stack_depth = l.stack_depth
        ∧ (revert_literal a l).2 = 0 := by
      unfold revert_literal
      rw [if_pos hbne]
      exact ⟨rfl, rfl⟩
    rw [if_neg hd, if_neg hd]
    exact hres

theorem revert_literal_count (a : Assignment) (l : Literal)
    (h0 : l.name ≠ InvalidLiteralName)
    (h255 : a.stack_depth ≠ InvalidStackDepth) :
    ((revert_literal a l).2 + (if LiteralIsInUse l = true then (1 : Int) else 0))
      = (if LiteralIsInUse (revert_literal a l).1 = true then (1 : Int) else 0) := by
  obtain ⟨htag, hinc⟩ := revert_literal_fields a l h0 h255
  by_cases hd : l.stack_depth = a.stack_depth
  · have hiu : LiteralIsInUse l = false := by
      rw [isInUse_eq_depth l h0, hd]
      simpa using h255
    have hiu' : LiteralIsInUse (revert_literal a l).1 = true := by
      rw [isInUse_eq_depth _ (by rw [revert_literal_name]; exact h0), htag]
      simp [hd]
    rw [hinc, hiu, hiu']
    simp [hd]
  · have hsame : LiteralIsInUse (revert_literal a l).1 = LiteralIsInUse l := by
      rw [isInUse_eq_depth _ (by rw [revert_literal_name]; exact h0),
        isInUse_eq_depth l h0, htag]
      simp [hd]
    rw [hinc, hsame]
    simp [hd]

theorem revert_lits_counts_abs (a : Assignment)
    (h255 : a.stack_depth ≠ InvalidStackDepth) :
    ∀ ls : List Literal, (∀ x ∈ ls, x.name ≠ InvalidLiteralName) →
      ((ls.map fun l => (revert_literal a l).2).sum
          + (ls.countP LiteralIsInUse : Int)
        = ((ls.map fun l => (revert_literal a l).1).countP LiteralIsInUse : Int)) := by
  intro ls
  induction ls with
  | nil => intro _; simp
  | cons x t ih =>
    intro h
    have hx := revert_literal_count a x (h x (by simp)) h255
    have ht := ih (fun y hy => h y (List.mem_cons_of_mem _ hy))
    simp only [List.map_cons, List.sum_cons, List.countP_cons, Nat.cast_add,
      Nat.cast_ite, Nat.cast_one, Nat.cast_zero]
    linarith [hx, ht]

theorem revert_clause_counts_ok (a : Assignment)
    (h255 : a.stack_depth ≠ InvalidStackDepth) (cl : Clause)
    (h0 : ∀ x ∈ cl.lits, x.name ≠ InvalidLiteralName)
    (hc : clause_counts_ok cl) : clause_counts_ok (revert_clause a cl) := by
  unfold clause_counts_ok at hc ⊢
  show cl.n_in_use + (cl.lits.map fun l => (revert_literal a l).2).sum
    = ((cl.lits.map fun l => (revert_literal a l).1).countP LiteralIsInUse : Int)
  have := revert_lits_counts_abs a h255 cl.lits h0
  linarith [this]

theorem revert_change_counts_ok (a : Assignment)
    (h255 : a.stack_depth ≠ InvalidStackDepth) (f : Formula)
    (hnz : names_ok f) (hc : counts_ok f) :
    counts_ok (revert_change f a) := by
  intro cl' hcl'
  obtain ⟨cl, hcl, rfl⟩ := List.mem_map.mp hcl'
  exact revert_clause_counts_ok a h255 cl (names_ok_clause hnz hcl) (hc cl hcl)

theorem revert_change_names_map (f : Formula) (a : Assignment) :
    (formula_literals (revert_change f a)).map Literal.name
      = (formula_literals f).map Literal.name := by
  rw [revert_change_lits, List.map_map]
  refine List.map_congr_left fun l _ => ?_
  exact revert_literal_name a l


/-! ## Arithmetic of the driver measure -/

theorem nuStack_lt (st : List Assignment) : nuStack st < 2 ^ st.length := by
  induction st with
  | nil => simp [nuStack]
  | cons a t ih =>
    simp only [nuStack, List.length_cons, pow_succ]
    split <;> omega

theorem pack_lt (C A0 A1 b0 b1 : Nat) (hA : A1 < A0) (hb : b1 < C) :
    A1 * C + b1 < A0 * C + b0 := by
  have h1 : A1 * C + b1 < (A1 + 1) * C := by
    have : (A1 + 1) * C = A1 * C + C := by ring
    omega
  have h2 : (A1 + 1) * C ≤ A0 * C := Nat.mul_le_mul_right _ hA
  omega

theorem stackPadded_le (N : Nat) (st : List Assignment) (h : st.length ≤ N) :
    stackPadded N st ≤ 2 ^ N := by
  unfold stackPadded
  have h1 : nuStack st + 1 ≤ 2 ^ st.length := nuStack_lt st
  have h2 : (nuStack st + 1) * 2 ^ (N - st.length)
      ≤ 2 ^ st.length * 2 ^ (N - st.length) :=
    Nat.mul_le_mul_right _ h1
  have h3 : 2 ^ st.length * 2 ^ (N - st.length) = 2 ^ N := by
    rw [← pow_add]
    congr 1
    omega
  have h4 : nuStack st * 2 ^ (N - st.length) + 2 ^ (N - st.length)
      = (nuStack st + 1) * 2 ^ (N - st.length) := by ring
  have h5 : (nuStack st + 1) * 2 ^ (N - st.length) ≤ 2 ^ N := h3 ▸ h2
  have h6 : 0 < 2 ^ (N - st.length) := Nat.pos_pow_of_pos _ (by norm_num)
  omega

theorem retryW_eq_padded (N : Nat) (st : List Assignment) (e : Assignment)
    (he : e.newval = VAL_FALSE) :
    retryW N st = stackPadded N (e :: st) := by
  unfold retryW stackPadded
  simp only [nuStack, List.length_cons, he]
  have h1 : N - st.length - 1 = N - (st.length + 1) := by omega
  simp [h1, VAL_FALSE]

theorem retryW_le (N : Nat) (st : List Assignment) (h : st.length < N) :
    retryW N st ≤ 2 ^ N := by
  have hd : ((⟨0, 0, VAL_FALSE, 0⟩ : Assignment) :: st).length ≤ N := by
    simpa using h
  rw [retryW_eq_padded N st ⟨0, 0, VAL_FALSE, 0⟩ rfl]
  exact stackPadded_le N _ hd

theorem stackPadded_push_true (N : Nat) (st : List Assignment) (e : Assignment)
    (he : e.newval = VAL_TRUE) (h : st.length < N) :
    stackPadded N (e :: st) = stackPadded N st := by
  unfold stackPadded
  simp only [nuStack, List.length_cons, he]
  have hsplit : N - st.length = (N - (st.length + 1)) + 1 := by omega
  rw [hsplit, pow_succ]
  simp [VAL_TRUE, VAL_FALSE]
  try ring

theorem retryW_gt_padded (N : Nat) (st : List Assignment) (h : st.length < N) :
    stackPadded N st < retryW N st := by
  unfold stackPadded retryW
  have h1 : nuStack st * 2 ^ (N - st.length)
      = 2 * nuStack st * 2 ^ (N - st.length - 1) := by
    set m := N - st.length - 1 with hm
    have hs : N - st.length = m + 1 := by omega
    rw [hs, pow_succ]
    ring
  have h2 : 0 < 2 ^ (N - st.length - 1) := Nat.pos_pow_of_pos _ (by norm_num)
  have h3 : (2 * nuStack st + 1) * 2 ^ (N - st.length - 1)
      = 2 * nuStack st * 2 ^ (N - st.length - 1) + 2 ^ (N - st.length - 1) := by
    ring
  omega

theorem configMeasure_choose_push_lt (N : Nat) (st : List Assignment)
    (e : Assignment) (he : e.newval = VAL_TRUE) (h : st.length < N) :
    configMeasure N .choose (e :: st) < configMeasure N .choose st := by
  simp only [configMeasure]
  rw [stackPadded_push_true N st e he h]
  simp only [List.length_cons]
  omega

theorem configMeasure_retry_lt_choose (N : Nat) (st : List Assignment)
    (a : Assignment) (h : st.length < N) :
    configMeasure N (.retry a) st < configMeasure N .choose st := by
  simp only [configMeasure]
  have h1 := retryW_gt_padded N st h
  have h2 := retryW_le N st h
  exact pack_lt (2 * N + 2) (2 ^ N - stackPadded N st) (2 ^ N - retryW N st)
    ((N - st.length) * 2) ((N - st.length - 1) * 2 + 1) (by omega) (by omega)

theorem configMeasure_choose_lt_retry (N : Nat) (st : List Assignment)
    (a e : Assignment) (he : e.newval = VAL_FALSE) (_h : st.length < N) :
    configMeasure N .choose (e :: st) < configMeasure N (.retry a) st := by
  simp only [configMeasure]
  rw [← retryW_eq_padded N st e he]
  simp only [List.length_cons]
  omega

theorem configMeasure_retry_lt_retry (N : Nat) (st st2 : List Assignment)
    (a a2 : Assignment) (h2 : st2.length < N)
    (hgt : retryW N st < retryW N st2) :
    configMeasure N (.retry a2) st2 < configMeasure N (.retry a) st := by
  simp only [configMeasure]
  have hle := retryW_le N st2 h2
  exact pack_lt (2 * N + 2) (2 ^ N - retryW N st) (2 ^ N - retryW N st2)
    ((N - st.length - 1) * 2 + 1) ((N - st2.length - 1) * 2 + 1)
    (by omega) (by omega)


/-! ## A completed propagation leaves no in-use literal of its variable -/

theorem names_ok_of_map {g : Formula} {nl : List Nat}
    (hmap : (formula_literals g).map Literal.name = nl)
    (hnl : ∀ n ∈ nl, n ≠ InvalidLiteralName) : names_ok g := by
  intro l hl
  exact hnl l.name (hmap ▸ List.mem_map_of_mem Literal.name hl)

theorem getD_set_ne (ls : List Literal) (j i : Nat) (x : Literal) (h : j ≠ i) :
    (ls.set j x).getD i default = ls.getD i default := by
  rw [List.getD_eq_getElem?_getD, List.getD_eq_getElem?_getD,
    List.getElem?_set_ne h]

theorem delete_set_all_dead (d : Nat) (h255 : d ≠ InvalidStackDepth)
    (cl : Clause) (j : Nat) (newv : Int) (l : Literal)
    (hnz : ∀ x ∈ cl.lits, x.name ≠ InvalidLiteralName)
    (hlname : l.name ≠ InvalidLiteralName) :
    ∀ y ∈ (delete_clause_from_formula
      { cl with lits := cl.lits.set j { l with assigned_value := newv } } d).lits,
      LiteralIsInUse y = false := by
  intro y hy
  obtain ⟨z, hz, rfl⟩ := List.mem_map.mp hy
  have hzname : z.name ≠ InvalidLiteralName := by
    rcases List.mem_or_eq_of_mem_set hz with hz' | rfl
    · exact hnz z hz'
    · exact hlname
  by_cases huz : LiteralIsInUse z = true
  · rw [if_pos huz]
    simp [LiteralIsInUse, hzname, h255]
  · rw [if_neg huz]
    simpa using huz

theorem plv_clause_loop_kills (lname : Nat) (newv : Int) (d : Nat)
    (h255 : d ≠ InvalidStackDepth) :
    ∀ (fuel j : Nat) (cl : Clause), j + fuel = cl.lits.length →
      (∀ x ∈ cl.lits, x.name ≠ InvalidLiteralName) →
      (∀ i, i < j → (cl.lits.getD i default).name = lname →
        LiteralIsInUse (cl.lits.getD i default) = false) →
      (plv_clause_loop lname newv d fuel j cl).2 = true →
      ∀ l ∈ (plv_clause_loop lname newv d fuel j cl).1.lits,
        l.name = lname → LiteralIsInUse l = false := by
  intro fuel
  induction fuel with
  | zero =>
    intro j cl hlen hnz hdead _ l hl hname
    simp only [plv_clause_loop] at hl
    obtain ⟨i, hi, hil⟩ := List.mem_iff_getElem.mp hl
    have heq : cl.lits.getD i default = l := by
      rw [List.getD_eq_getElem cl.lits default hi, hil]
    have hres := hdead i (by omega) (by rw [heq]; exact hname)
    rw [heq] at hres
    exact hres
  | succ fuel ih =>
    intro j cl hlen hnz hdead hok l hl hname
    have hj : j < cl.lits.length := by omega
    obtain ⟨lj, hlj⟩ : ∃ x, cl.lits.getD j default = x := ⟨_, rfl⟩
    have hjmem : lj ∈ cl.lits := by
      rw [← hlj, List.getD_eq_getElem cl.lits default hj]
      exact List.getElem_mem hj
    have hjnz : lj.name ≠ InvalidLiteralName := hnz _ hjmem
    by_cases hg : (lj.name != lname || !(LiteralIsInUse lj)) = true
    · rw [plv_step_skip lname newv d fuel j cl (by rw [hlj]; exact hg)] at hok hl
      refine ih (j + 1) cl (by omega) hnz ?_ hok l hl hname
      intro i hi hin
      rcases Nat.lt_or_ge i j with hij | hij
      · exact hdead i hij hin
      · have hij' : i = j := by omega
        subst hij'
        rw [hlj] at hin ⊢
        rcases Bool.or_eq_true_iff.mp hg with hn | hu
        · exact absurd hin (by simpa using hn)
        · simpa using hu
    · have hg' : (lj.name != lname || !(LiteralIsInUse lj)) = false :=
        Bool.eq_false_iff.mpr hg
      by_cases ht : LiteralGivesTrue { lj with assigned_value := newv } = true
      · rw [plv_step_delete lname newv d fuel j cl lj hlj hg' ht] at hok hl
        have hlen' : (delete_clause_from_formula { cl with lits := cl.lits.set j { lj with assigned_value := newv } } d).lits.length = cl.lits.length := by
          simp [delete_clause_from_formula]
        have halldead := delete_set_all_dead d h255 cl j newv lj hnz hjnz
        refine ih (j + 1) _ (by rw [hlen']; omega) ?_ ?_ hok l hl hname
        · intro x hx
          obtain ⟨z, hz, rfl⟩ := List.mem_map.mp hx
          have hzname : z.name ≠ InvalidLiteralName := by
            rcases List.mem_or_eq_of_mem_set hz with hz' | rfl
            · exact hnz z hz'
            · exact hjnz
          split <;> simpa using hzname
        · intro i hi hin
          refine halldead _ ?_
          have hilen : i < (delete_clause_from_formula { cl with lits := cl.lits.set j { lj with assigned_value := newv } } d).lits.length := by
            rw [hlen']
            omega
          rw [List.getD_eq_getElem _ default hilen]
          exact List.getElem_mem hilen
      · have ht' : LiteralGivesTrue { lj with assigned_value := newv } = false :=
          Bool.eq_false_iff.mpr ht
        by_cases he : clause_is_empty { cl with lits := cl.lits.set j { lj with assigned_value := newv } } = true
        · rw [plv_step_conflict lname newv d fuel j cl lj hlj hg' ht' he] at hok
          exact absurd hok (by simp)
        · have he' : clause_is_empty { cl with lits := cl.lits.set j { lj with assigned_value := newv } } = false :=
            Bool.eq_false_iff.mpr he
          rw [plv_step_shrink lname newv d fuel j cl lj hlj hg' ht' he'] at hok hl
          refine ih (j + 1) _ ?_ ?_ ?_ hok l hl hname
          · simp only [List.length_set]
            omega
          · intro x hx
            rcases List.mem_or_eq_of_mem_set hx with hx' | rfl
            · exact hnz x hx'
            · exact hjnz
          · intro i hi hin
            rcases Nat.lt_or_ge i j with hij | hij
            · rw [show ({ lits := cl.lits.set j { lj with assigned_value := newv, stack_depth := d }, n_in_use := cl.n_in_use - 1 } : Clause).lits = cl.lits.set j { lj with assigned_value := newv, stack_depth := d } from rfl] at hin ⊢
              rw [getD_set_ne cl.lits j i _ (by omega)] at hin ⊢
              exact hdead i hij hin
            · have hij' : i = j := by omega
              subst hij'
              have hset : ((cl.lits.set i { lj with assigned_value := newv, stack_depth := d }).getD i default) = { lj with assigned_value := newv, stack_depth := d } := by
                rw [List.getD_eq_getElem?_getD, List.getElem?_set_self hj]
                rfl
              rw [show ({ lits := cl.lits.set i { lj with assigned_value := newv, stack_depth := d }, n_in_use := cl.n_in_use - 1 } : Clause).lits = cl.lits.set i { lj with assigned_value := newv, stack_depth := d } from rfl]
              rw [hset]
              simp [LiteralIsInUse, hjnz, h255]

theorem plv_clauses_kills (lname : Nat) (newv : Int) (d : Nat)
    (h255 : d ≠ InvalidStackDepth) :
    ∀ cs : List Clause,
      (∀ cl ∈ cs, ∀ x ∈ cl.lits, x.name ≠ InvalidLiteralName) →
      (plv_clauses lname newv d cs).2 = true →
      ∀ cl ∈ (plv_clauses lname newv d cs).1, ∀ l ∈ cl.lits,
        l.name = lname → LiteralIsInUse l = false := by
  intro cs
  induction cs with
  | nil =>
    intro _ _ cl hcl
    simp [plv_clauses] at hcl
  | cons c rest ih =>
    intro hnz hok cl hcl l hl hname
    cases hres : plv_clause_loop lname newv d c.lits.length 0 c with
    | mk c' okc =>
      cases okc with
      | true =>
        rw [plv_clauses] at hok hcl
        rw [hres] at hok hcl
        simp only at hok hcl
        rcases List.mem_cons.mp hcl with rfl | hcl2
        · have hk := plv_clause_loop_kills lname newv d h255 c.lits.length 0 c
            (by omega) (hnz c (by simp)) (fun i hi => absurd hi (by omega))
            (by rw [hres])
          rw [hres] at hk
          exact hk l hl hname
        · exact ih (fun x hx => hnz x (List.mem_cons_of_mem _ hx)) hok cl hcl2 l hl hname
      | false =>
        rw [plv_clauses] at hok
        rw [hres] at hok
        simp at hok

theorem propagate_kills (f : Formula) (lname : Nat) (newv : Int) (d : Nat)
    (h255 : d ≠ InvalidStackDepth) (hnz : names_ok f)
    (hok : (propagate_literal_value f lname newv d).2 = true) :
    name_dead lname (propagate_literal_value f lname newv d).1 := by
  intro l hl hname
  unfold formula_literals at hl
  obtain ⟨ls, hls, hl⟩ := List.mem_flatten.mp hl
  obtain ⟨cl, hcl, rfl⟩ := List.mem_map.mp hls
  exact plv_clauses_kills lname newv d h255 f.clauses
    (fun c hc => names_ok_clause hnz hc) hok cl hcl l hl hname

theorem formulaRel_dead {d v : Nat} {f0 f : Formula} (h : FormulaRel d f0 f)
    (h255 : d ≠ InvalidStackDepth) (hnz : names_ok f0)
    (hdead : name_dead v f0) : name_dead v f := by
  intro l hl hname
  obtain ⟨l0, hl0, hr⟩ := forall₂_mem_right (formulaRel_lits h) l hl
  by_contra hiu
  have hiu' : LiteralIsInUse l = true := by
    cases hq : LiteralIsInUse l
    · exact absurd hq hiu
    · rfl
  have h0 : l0.name ≠ InvalidLiteralName := hnz l0 hl0
  have hln : l.name = l0.name := hr.1
  rcases hr.2.2 with ⟨hdep, _⟩ | ⟨hu0, htag⟩
  · have hq0 : LiteralIsInUse l0 = true := by
      rw [isInUse_eq_depth l0 h0, ← hdep]
      rw [isInUse_eq_depth l (by rw [hln]; exact h0)] at hiu'
      exact hiu'
    exact absurd hq0 (by simp [hdead l0 hl0 (by rw [← hln]; exact hname)])
  · rw [isInUse_eq_depth l (by rw [hln]; exact h0), htag] at hiu'
    exact absurd (by simpa using hiu') h255


/-! ## Preservation of the driver invariant -/

theorem driverInv_weak {nl : List Nat} {f : Formula} {st : List Assignment}
    (h : DriverInv nl f st) : DriverInvW nl f st := by
  obtain ⟨h1, h2, h3, h4, h5, h6, h7⟩ := h
  exact ⟨h1, h2, h3, h4, fun j hj _ => h5 j hj, h6, h7⟩

theorem driverInvW_nil (nl : List Nat) (f : Formula)
    (hw : DriverInvW nl f []) : DriverInv nl f [] := by
  obtain ⟨h1, h2, h3, h4, _, h6, h7⟩ := hw
  exact ⟨h1, h2, h3, h4, fun j hj => absurd hj (by simp), h6, h7⟩

theorem pop_revert_inv (nl : List Nat)
    (hnl0 : ∀ n ∈ nl, n ≠ InvalidLiteralName)
    (f : Formula) (e : Assignment) (rest : List Assignment)
    (hlen : rest.length + 1 ≤ 254)
    (hw : DriverInvW nl f (e :: rest)) :
    DriverInv nl (revert_change f e) rest := by
  obtain ⟨hcnt, hmap, hdep, hpos, hname, hnd, hent⟩ := hw
  have hnz : names_ok f := names_ok_of_map hmap hnl0
  have hed : e.stack_depth = rest.length + 1 := by
    have h0 := hpos 0 (by simp)
    simpa using h0
  have he255 : e.stack_depth ≠ InvalidStackDepth := by
    rw [hed]
    have hv : InvalidStackDepth = 255 := rfl
    omega
  have hmem : ∀ l' ∈ formula_literals (revert_change f e),
      ∃ l ∈ formula_literals f, l' = (revert_literal e l).1 := by
    intro l' hl'
    rw [revert_change_lits] at hl'
    obtain ⟨l, hl, hleq⟩ := List.mem_map.mp hl'
    exact ⟨l, hl, hleq.symm⟩
  refine ⟨revert_change_counts_ok e he255 f hnz hcnt, ?_, ?_, ?_, ?_, ?_, ?_⟩
  · rw [revert_change_names_map]
    exact hmap
  · intro l' hl'
    obtain ⟨l, hl, rfl⟩ := hmem l' hl'
    have hfld := revert_literal_fields e l (hnz l hl) he255
    by_cases hde : l.stack_depth = e.stack_depth
    · left
      rw [hfld.1, if_pos hde]
    · rw [hfld.1, if_neg hde]
      rcases hdep l hl with h255 | hle
      · left
        exact h255
      · right
        rw [hed] at hde
        simp only [List.length_cons] at hle
        omega
  · intro j hj
    have hj1 : j + 1 < (e :: rest).length := by
      simp only [List.length_cons]
      omega
    show ((e :: rest).get ⟨j + 1, hj1⟩).stack_depth = rest.length - j
    rw [hpos (j + 1) hj1]
    simp only [List.length_cons]
    omega
  · intro j hj l' hl' hn'
    obtain ⟨l, hl, rfl⟩ := hmem l' hl'
    have hj1 : j + 1 < (e :: rest).length := by
      simp only [List.length_cons]
      omega
    have hn0 : l.name = ((e :: rest).get ⟨j + 1, hj1⟩).literal_name := by
      rw [revert_literal_name] at hn'
      exact hn'
    have h5 := hname (j + 1) hj1 (by omega) l hl hn0
    simp only [List.length_cons] at h5
    have hfld := revert_literal_fields e l (hnz l hl) he255
    have hne : l.stack_depth ≠ e.stack_depth := by
      rw [hed]
      omega
    rw [hfld.1, if_neg hne]
    omega
  · have hnd' := hnd
    rw [List.map_cons] at hnd'
    exact (List.nodup_cons.mp hnd').2
  · intro x hx
    exact hent x (List.mem_cons_of_mem e hx)

theorem push_inv_weak (nl : List Nat)
    (f g : Formula) (st : List Assignment) (a : Assignment)
    (hst1 : st.length + 1 ≤ 254)
    (had : a.stack_depth = st.length + 1)
    (hanl : a.literal_name ∈ nl)
    (hanz : a.literal_name ≠ InvalidLiteralName)
    (hanew : a.newval = VAL_TRUE ∨ a.newval = VAL_FALSE)
    (hafresh : a.literal_name ∉ st.map Assignment.literal_name)
    (hinv : DriverInv nl f st)
    (hrel : FormulaRel (st.length + 1) f g)
    (hcntg : counts_ok g) :
    DriverInvW nl g (a :: st) := by
  obtain ⟨hcnt, hmap, hdep, hpos, hname, hnd, hent⟩ := hinv
  have hmapg : (formula_literals g).map Literal.name = nl := by
    rw [formulaRel_names_map hrel]
    exact hmap
  have hlits := formulaRel_lits hrel
  refine ⟨hcntg, hmapg, ?_, ?_, ?_, ?_, ?_⟩
  · intro l hl
    obtain ⟨l0, hl0, hr⟩ := forall₂_mem_right hlits l hl
    rcases hr.2.2 with ⟨hdeq, _⟩ | ⟨_, hdnew⟩
    · rcases hdep l0 hl0 with h255 | hle
      · left
        rw [hdeq]
        exact h255
      · right
        rw [hdeq]
        simp only [List.length_cons]
        omega
    · right
      rw [hdnew]
      simp only [List.length_cons]
      omega
  · intro j hj
    cases j with
    | zero =>
      simpa using had
    | succ j =>
      have hj' : j < st.length := by
        simp only [List.length_cons] at hj
        omega
      show (st.get ⟨j, hj'⟩).stack_depth = (a :: st).length - (j + 1)
      rw [hpos j hj']
      simp only [List.length_cons]
      omega
  · intro j hj hj1 l hl hn
    obtain ⟨l0, hl0, hr⟩ := forall₂_mem_right hlits l hl
    cases j with
    | zero => omega
    | succ j =>
      have hj' : j < st.length := by
        simp only [List.length_cons] at hj
        omega
      have hn0 : l0.name = (st.get ⟨j, hj'⟩).literal_name := by
        rw [← hr.1]
        exact hn
      have h5 := hname j hj' l0 hl0 hn0
      rcases hr.2.2 with ⟨hdeq, _⟩ | ⟨h255, _⟩
      · rw [hdeq]
        simp only [List.length_cons]
        omega
      · exfalso
        rw [h255] at h5
        have hv : InvalidStackDepth = 255 := rfl
        omega
  · rw [List.map_cons]
    exact List.nodup_cons.mpr ⟨hafresh, hnd⟩
  · intro x hx
    rcases List.mem_cons.mp hx with rfl | hx'
    · exact ⟨hanl, hanz, hanew⟩
    · exact hent x hx'

theorem driverInvW_full (nl : List Nat)
    (_hnl0 : ∀ n ∈ nl, n ≠ InvalidLiteralName)
    (g : Formula) (st : List Assignment) (a : Assignment)
    (hw : DriverInvW nl g (a :: st))
    (hdead : name_dead a.literal_name g) :
    DriverInv nl g (a :: st) := by
  obtain ⟨hcnt, hmap, hdep, hpos, hname, hnd, hent⟩ := hw
  refine ⟨hcnt, hmap, hdep, hpos, ?_, hnd, hent⟩
  intro j hj l hl hn
  cases j with
  | zero =>
    have hna : l.name = a.literal_name := hn
    have hd := hdead l hl hna
    have h255 : l.stack_depth ≠ InvalidStackDepth := by
      intro hcontra
      have hiu : LiteralIsInUse l = true := by
        simp [LiteralIsInUse, hcontra]
      rw [hd] at hiu
      simp at hiu
    rcases hdep l hl with hc | hle
    · exact absurd hc h255
    · simpa using hle
  | succ j =>
    exact hname (j + 1) hj (by omega) l hl hn

theorem find_unassigned_some (f : Formula) (v : Nat)
    (hv : find_unassigned_literal f = v) (hv0 : v ≠ InvalidLiteralName) :
    ∃ l ∈ formula_literals f, l.name = v ∧ LiteralIsInUse l = true
      ∧ l.assigned_value = VAL_UNASSIGNED := by
  rw [find_unassigned_literal, ful_loop_find?] at hv
  cases hf : List.find?
      (fun l => LiteralIsInUse l && (l.assigned_value == VAL_UNASSIGNED))
      (formula_literals f) with
  | none =>
    rw [hf] at hv
    simp at hv
    exact absurd hv.symm hv0
  | some l =>
    rw [hf] at hv
    simp at hv
    have hm := List.mem_of_find?_eq_some hf
    have hp := List.find?_some hf
    simp at hp
    exact ⟨l, hm, hv, by simp [hp.1], hp.2⟩

/-! ## Backtrack loop: invariant and weight accounting -/

theorem unwind_weight_step (N : Nat) (rest : List Assignment) (e : Assignment)
    (he : e.newval = VAL_FALSE) (hlen : rest.length + 1 ≤ N) :
    nuStack (e :: rest) * 2 ^ (N - (e :: rest).length)
        + 2 ^ (N - (e :: rest).length)
      = nuStack rest * 2 ^ (N - rest.length) + 2 ^ (N - rest.length) := by
  simp only [nuStack, List.length_cons, he]
  have hsplit : N - rest.length = (N - (rest.length + 1)) + 1 := by omega
  rw [hsplit, pow_succ]
  have hVF : (VAL_FALSE == VAL_FALSE) = true := by decide
  rw [hVF]
  simp only [if_true]
  ring

theorem unwind_weight_base (N : Nat) (rest : List Assignment) (e : Assignment)
    (he : e.newval = VAL_TRUE) (_hlen : rest.length + 1 ≤ N) :
    nuStack (e :: rest) * 2 ^ (N - (e :: rest).length)
        + 2 ^ (N - (e :: rest).length)
      = retryW N rest := by
  unfold retryW
  simp only [nuStack, List.length_cons, he]
  have hVT : (VAL_TRUE == VAL_FALSE) = false := by decide
  rw [hVT]
  simp only [Bool.false_eq_true, if_false]
  have hsplit : N - rest.length - 1 = N - (rest.length + 1) := by omega
  rw [hsplit]
  ring

theorem unwind_spec (nl : List Nat)
    (hnl0 : ∀ n ∈ nl, n ≠ InvalidLiteralName)
    (N : Nat) (hN254 : N ≤ 254) :
    ∀ (s : List Assignment) (f : Formula) (out : List String) (a0 : Assignment),
      DriverInvW nl f s → s.length ≤ N → a0.newval = VAL_FALSE →
      ∀ f2 S2 out2 A2, unwind_loop f s out a0 = (f2, S2, out2, A2) →
        DriverInv nl f2 S2
        ∧ S2.length ≤ N
        ∧ (A2.newval ≠ VAL_TRUE → S2 = [])
        ∧ (A2.newval = VAL_TRUE →
            A2.literal_name ∈ nl ∧ A2.literal_name ≠ InvalidLiteralName
            ∧ A2.literal_name ∉ S2.map Assignment.literal_name
            ∧ nuStack s * 2 ^ (N - s.length) + 2 ^ (N - s.length)
                ≤ retryW N S2) := by
  intro s
  induction s with
  | nil =>
    intro f out a0 hw hlen ha0 f2 S2 out2 A2 heq
    have hred : unwind_loop f [] out a0 = (f, [], out, a0) := rfl
    rw [hred] at heq
    simp only [Prod.mk.injEq] at heq
    obtain ⟨rfl, rfl, rfl, rfl⟩ := heq
    refine ⟨driverInvW_nil nl f hw, by simp, fun _ => rfl, ?_⟩
    intro htrue
    rw [ha0] at htrue
    exact absurd htrue (by decide)
  | cons e rest ih =>
    intro f out a0 hw hlen ha0 f2 S2 out2 A2 heq
    have hlen' : rest.length + 1 ≤ N := by
      simpa using hlen
    have hpop : DriverInv nl (revert_change f e) rest :=
      pop_revert_inv nl hnl0 f e rest (by omega) hw
    have hee := hw.2.2.2.2.2.2 e (by simp)
    simp only [unwind_loop] at heq
    by_cases hef : e.newval = VAL_FALSE
    · rw [if_pos (by simp [hef])] at heq
      have hres := ih (revert_change f e)
        (out ++ print_formula (revert_change f e) (some "reverted in cycle")) e
        (driverInv_weak hpop) (by omega) hef f2 S2 out2 A2 heq
      refine ⟨hres.1, hres.2.1, hres.2.2.1, ?_⟩
      intro htrue
      obtain ⟨g1, g2, g3, g4⟩ := hres.2.2.2 htrue
      refine ⟨g1, g2, g3, ?_⟩
      calc nuStack (e :: rest) * 2 ^ (N - (e :: rest).length)
            + 2 ^ (N - (e :: rest).length)
          = nuStack rest * 2 ^ (N - rest.length) + 2 ^ (N - rest.length) :=
            unwind_weight_step N rest e hef hlen'
        _ ≤ retryW N S2 := g4
    · have het : e.newval = VAL_TRUE := by
        rcases hee.2.2 with h | h
        · exact h
        · exact absurd h hef
      rw [if_neg (by simp [hef])] at heq
      simp only [Prod.mk.injEq] at heq
      obtain ⟨rfl, rfl, rfl, rfl⟩ := heq
      refine ⟨hpop, by omega, fun hne => absurd het hne, ?_⟩
      intro _
      refine ⟨hee.1, hee.2.1, ?_, ?_⟩
      · have hnd' := hw.2.2.2.2.2.1
        rw [List.map_cons] at hnd'
        exact (List.nodup_cons.mp hnd').1
      · exact le_of_eq (unwind_weight_base N rest e het hlen')


theorem unwind_loop_out_irrel :
    ∀ (s : List Assignment) (f : Formula) (out out2 : List String)
      (a : Assignment) (g : Formula) (S : List Assignment) (o : List String)
      (A : Assignment),
      unwind_loop f s out a = (g, S, o, A) →
      ∃ o2, unwind_loop f s out2 a = (g, S, o2, A) := by
  intro s
  induction s with
  | nil =>
    intro f out out2 a g S o A h
    have h1 : unwind_loop f [] out a = (f, [], out, a) := rfl
    rw [h1] at h
    simp only [Prod.mk.injEq] at h
    obtain ⟨rfl, rfl, _, rfl⟩ := h
    exact ⟨out2, rfl⟩
  | cons e rest ih =>
    intro f out out2 a g S o A h
    simp only [unwind_loop] at h ⊢
    by_cases hef : (e.newval == VAL_FALSE) = true
    · rw [if_pos hef] at h ⊢
      exact ih _ _ _ _ _ _ _ _ h
    · rw [if_neg hef] at h ⊢
      simp only [Prod.mk.injEq] at h
      obtain ⟨rfl, rfl, _, rfl⟩ := h
      exact ⟨out2 ++ print_formula (revert_change f e) (some "reverted in cycle"),
        rfl⟩


/-! ## One driver step: either done, or a strictly smaller configuration -/

theorem dpll_one_step (nl : List Nat) (N : Nat)
    (hnl0 : ∀ n ∈ nl, n ≠ InvalidLiteralName)
    (hN : ∀ xs : List Nat, xs.Nodup → (∀ x ∈ xs, x ∈ nl) → xs.length ≤ N)
    (hN254 : N ≤ 254)
    (mode : Mode) (f : Formula) (st : List Assignment)
    (hinv : DriverInv nl f st)
    (hmode : ∀ a0, mode = Mode.retry a0 →
      a0.literal_name ∈ nl ∧ a0.literal_name ≠ InvalidLiteralName
      ∧ a0.literal_name ∉ st.map Assignment.literal_name) :
    (∀ fuel out, (dpll_loop (fuel + 1) mode f st out).isDone = true)
    ∨ ∃ mode2 f2 st2,
        configMeasure N mode2 st2 < configMeasure N mode st
        ∧ DriverInv nl f2 st2
        ∧ (∀ a0, mode2 = Mode.retry a0 →
            a0.literal_name ∈ nl ∧ a0.literal_name ≠ InvalidLiteralName
            ∧ a0.literal_name ∉ st2.map Assignment.literal_name)
        ∧ ∀ fuel,
            (∀ out, (dpll_loop fuel mode2 f2 st2 out).isDone = true) →
            ∀ out, (dpll_loop (fuel + 1) mode f st out).isDone = true := by
  have hnz : names_ok f := names_ok_of_map hinv.2.1 hnl0
  have hv255 : InvalidStackDepth = 255 := rfl
  have hcap255 : STACK_MAX_CAPACITY = 255 := rfl
  have hstN : st.length ≤ N := by
    have h1 := hN (st.map Assignment.literal_name)
      hinv.2.2.2.2.2.1
      (fun x hx => by
        obtain ⟨e, he, rfl⟩ := List.mem_map.mp hx
        exact (hinv.2.2.2.2.2.2 e he).1)
    simpa using h1
  cases mode with
  | choose =>
    by_cases hv0 : find_unassigned_literal f = InvalidLiteralName
    · left
      intro fuel out
      simp [dpll_loop, hv0, DriverResult.isDone]
    · obtain ⟨l, hlmem, hlname, hliu, hlun⟩ :=
        find_unassigned_some f (find_unassigned_literal f) rfl hv0
      have hvnl : find_unassigned_literal f ∈ nl := by
        rw [← hlname, ← hinv.2.1]
        exact List.mem_map_of_mem Literal.name hlmem
      have hvnotst :
          find_unassigned_literal f ∉ st.map Assignment.literal_name := by
        intro hcontra
        obtain ⟨e, he, hename⟩ := List.mem_map.mp hcontra
        obtain ⟨⟨j, hj⟩, rfl⟩ := List.mem_iff_get.mp he
        have h5 := hinv.2.2.2.2.1 j hj l hlmem (by rw [hlname, hename])
        have hdepl : l.stack_depth = InvalidStackDepth := by
          rw [isInUse_iff (by rw [hlname]; exact hv0)] at hliu
          exact hliu
        rw [hdepl] at h5
        omega
      have hstlt : st.length < N := by
        have h1 := hN (find_unassigned_literal f :: st.map Assignment.literal_name)
          (List.nodup_cons.mpr ⟨hvnotst, hinv.2.2.2.2.2.1⟩)
          (fun x hx => by
            rcases List.mem_cons.mp hx with rfl | hx'
            · exact hvnl
            · obtain ⟨e, he, rfl⟩ := List.mem_map.mp hx'
              exact (hinv.2.2.2.2.2.2 e he).1)
        simp only [List.length_cons, List.length_map] at h1
        omega
      have hd255 : st.length + 1 ≠ InvalidStackDepth := by omega
      have hcapf : (STACK_MAX_CAPACITY ≤ st.length) = False := by
        apply eq_false
        omega
      have hbeq : (find_unassigned_literal f == InvalidLiteralName) = false := by
        rw [beq_eq_false_iff_ne]
        exact hv0
      rcases hp : propagate_literal_value f (find_unassigned_literal f) VAL_TRUE
          (st.length + 1) with ⟨f1, ok1⟩
      have hrel1 := propagate_literal_value_rel f (find_unassigned_literal f)
        VAL_TRUE (st.length + 1) hd255 hnz hinv.1
      rw [hp] at hrel1
      have hnzf1 : names_ok f1 := names_ok_of_map
        (by rw [formulaRel_names_map hrel1.1]; exact hinv.2.1) hnl0
      cases ok1 with
      | false =>
        right
        refine ⟨.retry ⟨find_unassigned_literal f, VAL_UNASSIGNED, VAL_TRUE, st.length + 1⟩,
          revert_change f1 ⟨find_unassigned_literal f, VAL_UNASSIGNED, VAL_TRUE, st.length + 1⟩,
          st, ?_, ?_, ?_, ?_⟩
        · exact configMeasure_retry_lt_choose N st _ hstlt
        · refine pop_revert_inv nl hnl0 f1 _ st (by omega) ?_
          exact push_inv_weak nl f f1 st _ (by omega) rfl hvnl hv0 (Or.inl rfl)
            hvnotst hinv hrel1.1 hrel1.2
        · intro b h
          injection h with h'
          subst h'
          exact ⟨hvnl, hv0, hvnotst⟩
        · intro fuel hdone out
          simp only [dpll_loop, hbeq, Bool.false_eq_true, if_false, hcapf, hp]
          exact hdone _
      | true =>
        rcases hu : unit_propagate_run f1 (st.length + 1) with ⟨f2, ok2⟩
        have hrel2 := unit_propagate_rel (st.length + 1) hd255
          (totalInUse f1 + 1) f1 hnzf1 hrel1.2
        have hruneq : unit_propagate (st.length + 1) (totalInUse f1 + 1) f1
            = unit_propagate_run f1 (st.length + 1) := rfl
        rw [hruneq, hu] at hrel2
        have hrelc : FormulaRel (st.length + 1) f f2 :=
          formulaRel_trans hd255 hrel1.1 hrel2.1
        have hdead : name_dead (find_unassigned_literal f) f2 := by
          have hk := propagate_kills f (find_unassigned_literal f) VAL_TRUE
            (st.length + 1) hd255 hnz (by rw [hp])
          rw [hp] at hk
          exact formulaRel_dead hrel2.1 hd255 hnzf1 hk
        cases ok2 with
        | true =>
          right
          refine ⟨.choose, f2,
            (⟨find_unassigned_literal f, VAL_UNASSIGNED, VAL_TRUE, st.length + 1⟩ : Assignment) :: st,
            ?_, ?_, ?_, ?_⟩
          · exact configMeasure_choose_push_lt N st _ rfl hstlt
          · refine driverInvW_full nl hnl0 f2 st _ ?_ hdead
            exact push_inv_weak nl f f2 st _ (by omega) rfl hvnl hv0 (Or.inl rfl)
              hvnotst hinv hrelc hrel2.2
          · intro b h
            exact nomatch h
          · intro fuel hdone out
            simp only [dpll_loop, hbeq, Bool.false_eq_true, if_false, hcapf, hp, hu]
            exact hdone _
        | false =>
          right
          refine ⟨.retry ⟨find_unassigned_literal f, VAL_UNASSIGNED, VAL_TRUE, st.length + 1⟩,
            revert_change f2 ⟨find_unassigned_literal f, VAL_UNASSIGNED, VAL_TRUE, st.length + 1⟩,
            st, ?_, ?_, ?_, ?_⟩
          · exact configMeasure_retry_lt_choose N st _ hstlt
          · refine pop_revert_inv nl hnl0 f2 _ st (by omega) ?_
            exact push_inv_weak nl f f2 st _ (by omega) rfl hvnl hv0 (Or.inl rfl)
              hvnotst hinv hrelc hrel2.2
          · intro b h
            injection h with h'
            subst h'
            exact ⟨hvnl, hv0, hvnotst⟩
          · intro fuel hdone out
            simp only [dpll_loop, hbeq, Bool.false_eq_true, if_false, hcapf, hp, hu]
            exact hdone _
  | retry a0 =>
    obtain ⟨ha0nl, ha0nz, ha0notst⟩ := hmode a0 rfl
    have hstlt : st.length < N := by
      have h1 := hN (a0.literal_name :: st.map Assignment.literal_name)
        (List.nodup_cons.mpr ⟨ha0notst, hinv.2.2.2.2.2.1⟩)
        (fun x hx => by
          rcases List.mem_cons.mp hx with rfl | hx'
          · exact ha0nl
          · obtain ⟨e, he, rfl⟩ := List.mem_map.mp hx'
            exact (hinv.2.2.2.2.2.2 e he).1)
      simp only [List.length_cons, List.length_map] at h1
      omega
    have hd255 : st.length + 1 ≠ InvalidStackDepth := by omega
    have hcapf : (STACK_MAX_CAPACITY ≤ st.length) = False := by
      apply eq_false
      omega
    rcases hp : propagate_literal_value f a0.literal_name VAL_FALSE
        (st.length + 1) with ⟨f1, ok1⟩
    have hrel1 := propagate_literal_value_rel f a0.literal_name
      VAL_FALSE (st.length + 1) hd255 hnz hinv.1
    rw [hp] at hrel1
    have hnzf1 : names_ok f1 := names_ok_of_map
      (by rw [formulaRel_names_map hrel1.1]; exact hinv.2.1) hnl0
    have hweak1 : DriverInvW nl f1
        ((⟨a0.literal_name, VAL_TRUE, VAL_FALSE, st.length + 1⟩ : Assignment) :: st) :=
      push_inv_weak nl f f1 st _ (by omega) rfl ha0nl ha0nz (Or.inr rfl)
        ha0notst hinv hrel1.1 hrel1.2
    cases ok1 with
    | false =>
      -- propagation of the FALSE value conflicts: unwind
      rcases hww : unwind_loop f1
          ((⟨a0.literal_name, VAL_TRUE, VAL_FALSE, st.length + 1⟩ : Assignment) :: st)
          ([] : List String)
          (⟨a0.literal_name, VAL_TRUE, VAL_FALSE, st.length + 1⟩ : Assignment)
          with ⟨f3, S2, out3, A2⟩
      obtain ⟨hinv3, hS2N, hSempty, hTRUE⟩ := unwind_spec nl hnl0 N hN254 _ f1 []
        _ hweak1 (by simp only [List.length_cons]; omega) rfl f3 S2 out3 A2 hww
      by_cases hA2 : A2.newval = VAL_TRUE
      · obtain ⟨g1, g2, g3, g4⟩ := hTRUE hA2
        have hA2b : (A2.newval == VAL_TRUE) = true := by
          rw [beq_iff_eq]
          exact hA2
        right
        refine ⟨.retry A2, f3, S2, ?_, hinv3, ?_, ?_⟩
        · have hS2lt : S2.length < N := by
            have h1 := hN (A2.literal_name :: S2.map Assignment.literal_name)
              (List.nodup_cons.mpr ⟨g3, hinv3.2.2.2.2.2.1⟩)
              (fun x hx => by
                rcases List.mem_cons.mp hx with rfl | hx'
                · exact g1
                · obtain ⟨e, he, rfl⟩ := List.mem_map.mp hx'
                  exact (hinv3.2.2.2.2.2.2 e he).1)
            simp only [List.length_cons, List.length_map] at h1
            omega
          refine configMeasure_retry_lt_retry N st S2 a0 A2 hS2lt ?_
          have hpad : retryW N st
              = nuStack ((⟨a0.literal_name, VAL_TRUE, VAL_FALSE, st.length + 1⟩ : Assignment) :: st)
                  * 2 ^ (N - ((⟨a0.literal_name, VAL_TRUE, VAL_FALSE, st.length + 1⟩ : Assignment) :: st).length) :=
            retryW_eq_padded N st _ rfl
          have hpow : 0 < 2 ^ (N - ((⟨a0.literal_name, VAL_TRUE, VAL_FALSE, st.length + 1⟩ : Assignment) :: st).length) :=
            Nat.pos_pow_of_pos _ (by norm_num)
          omega
        · intro b h
          injection h with h'
          subst h'
          exact ⟨g1, g2, g3⟩
        · intro fuel hdone out
          simp only [dpll_loop, hcapf, hp]
          obtain ⟨o2, ho2⟩ := unwind_loop_out_irrel _ f1 [] _ _ f3 S2 out3 A2 hww
          rw [ho2]
          cases hS2e : S2.isEmpty with
          | true =>
            simp only [hS2e, hA2b, if_true]
            exact hdone _
          | false =>
            simp only [hS2e, Bool.false_eq_true, if_false]
            exact hdone _
      · have hS2nil : S2 = [] := hSempty hA2
        subst hS2nil
        have hA2b : (A2.newval == VAL_TRUE) = false := by
          rw [beq_eq_false_iff_ne]
          exact hA2
        left
        intro fuel out
        simp only [dpll_loop, hcapf, hp]
        obtain ⟨o2, ho2⟩ := unwind_loop_out_irrel _ f1 [] _ _ f3 [] out3 A2 hww
        rw [ho2]
        simp only [List.isEmpty_nil, if_true, hA2b, Bool.false_eq_true, if_false]
        rfl
    | true =>
      rcases hu : unit_propagate_run f1 (st.length + 1) with ⟨f2, ok2⟩
      have hrel2 := unit_propagate_rel (st.length + 1) hd255
        (totalInUse f1 + 1) f1 hnzf1 hrel1.2
      have hruneq : unit_propagate (st.length + 1) (totalInUse f1 + 1) f1
          = unit_propagate_run f1 (st.length + 1) := rfl
      rw [hruneq, hu] at hrel2
      have hrelc : FormulaRel (st.length + 1) f f2 :=
        formulaRel_trans hd255 hrel1.1 hrel2.1
      have hdead : name_dead a0.literal_name f2 := by
        have hk := propagate_kills f a0.literal_name VAL_FALSE
          (st.length + 1) hd255 hnz (by rw [hp])
        rw [hp] at hk
        exact formulaRel_dead hrel2.1 hd255 hnzf1 hk
      have hweak2 : DriverInvW nl f2
          ((⟨a0.literal_name, VAL_TRUE, VAL_FALSE, st.length + 1⟩ : Assignment) :: st) :=
        push_inv_weak nl f f2 st _ (by omega) rfl ha0nl ha0nz (Or.inr rfl)
          ha0notst hinv hrelc hrel2.2
      cases ok2 with
      | true =>
        right
        refine ⟨.choose, f2,
          (⟨a0.literal_name, VAL_TRUE, VAL_FALSE, st.length + 1⟩ : Assignment) :: st,
          ?_, ?_, ?_, ?_⟩
        · exact configMeasure_choose_lt_retry N st a0 _ rfl hstlt
        · exact driverInvW_full nl hnl0 f2 st _ hweak2 hdead
        · intro b h
          exact nomatch h
        · intro fuel hdone out
          simp only [dpll_loop, hcapf, hp, hu]
          exact hdone _
      | false =>
        rcases hww : unwind_loop f2
            ((⟨a0.literal_name, VAL_TRUE, VAL_FALSE, st.length + 1⟩ : Assignment) :: st)
            ([] : List String)
            (⟨a0.literal_name, VAL_TRUE, VAL_FALSE, st.length + 1⟩ : Assignment)
            with ⟨f3, S2, out3, A2⟩
        obtain ⟨hinv3, hS2N, hSempty, hTRUE⟩ := unwind_spec nl hnl0 N hN254 _ f2 []
          _ hweak2 (by simp only [List.length_cons]; omega) rfl f3 S2 out3 A2 hww
        by_cases hA2 : A2.newval = VAL_TRUE
        · obtain ⟨g1, g2, g3, g4⟩ := hTRUE hA2
          have hA2b : (A2.newval == VAL_TRUE) = true := by
            rw [beq_iff_eq]
            exact hA2
          right
          refine ⟨.retry A2, f3, S2, ?_, hinv3, ?_, ?_⟩
          · have hS2lt : S2.length < N := by
              have h1 := hN (A2.literal_name :: S2.map Assignment.literal_name)
                (List.nodup_cons.mpr ⟨g3, hinv3.2.2.2.2.2.1⟩)
                (fun x hx => by
                  rcases List.mem_cons.mp hx with rfl | hx'
                  · exact g1
                  · obtain ⟨e, he, rfl⟩ := List.mem_map.mp hx'
                    exact (hinv3.2.2.2.2.2.2 e he).1)
              simp only [List.length_cons, List.length_map] at h1
              omega
            refine configMeasure_retry_lt_retry N st S2 a0 A2 hS2lt ?_
            have hpad : retryW N st
                = nuStack ((⟨a0.literal_name, VAL_TRUE, VAL_FALSE, st.length + 1⟩ : Assignment) :: st)
                    * 2 ^ (N - ((⟨a0.literal_name, VAL_TRUE, VAL_FALSE, st.length + 1⟩ : Assignment) :: st).length) :=
              retryW_eq_padded N st _ rfl
            have hpow : 0 < 2 ^ (N - ((⟨a0.literal_name, VAL_TRUE, VAL_FALSE, st.length + 1⟩ : Assignment) :: st).length) :=
              Nat.pos_pow_of_pos _ (by norm_num)
            omega
          · intro b h
            injection h with h'
            subst h'
            exact ⟨g1, g2, g3⟩
          · intro fuel hdone out
            simp only [dpll_loop, hcapf, hp, hu]
            obtain ⟨o2, ho2⟩ := unwind_loop_out_irrel _ f2 [] _ _ f3 S2 out3 A2 hww
            rw [ho2]
            cases hS2e : S2.isEmpty with
            | true =>
              simp only [hS2e, hA2b, if_true]
              exact hdone _
            | false =>
              simp only [hS2e, Bool.false_eq_true, if_false]
              exact hdone _
        · have hS2nil : S2 = [] := hSempty hA2
          subst hS2nil
          have hA2b : (A2.newval == VAL_TRUE) = false := by
            rw [beq_eq_false_iff_ne]
            exact hA2
          left
          intro fuel out
          simp only [dpll_loop, hcapf, hp, hu]
          obtain ⟨o2, ho2⟩ := unwind_loop_out_irrel _ f2 [] _ _ f3 [] out3 A2 hww
          rw [ho2]
          simp only [List.isEmpty_nil, if_true, hA2b, Bool.false_eq_true, if_false]
          rfl


/-! ## Termination of the search driver -/

theorem dpll_loop_terminates_aux (nl : List Nat) (N : Nat)
    (hnl0 : ∀ n ∈ nl, n ≠ InvalidLiteralName)
    (hN : ∀ xs : List Nat, xs.Nodup → (∀ x ∈ xs, x ∈ nl) → xs.length ≤ N)
    (hN254 : N ≤ 254) :
    ∀ (k : Nat) (mode : Mode) (f : Formula) (st : List Assignment),
      configMeasure N mode st ≤ k →
      DriverInv nl f st →
      (∀ a0, mode = Mode.retry a0 →
        a0.literal_name ∈ nl ∧ a0.literal_name ≠ InvalidLiteralName
        ∧ a0.literal_name ∉ st.map Assignment.literal_name) →
      ∃ fuel, ∀ out, (dpll_loop fuel mode f st out).isDone = true := by
  intro k
  induction k with
  | zero =>
    intro mode f st hm hinv hmode
    rcases dpll_one_step nl N hnl0 hN hN254 mode f st hinv hmode with
      hdone | ⟨m2, f2, st2, hlt, _, _, _⟩
    · exact ⟨1, fun out => hdone 0 out⟩
    · omega
  | succ k ih =>
    intro mode f st hm hinv hmode
    rcases dpll_one_step nl N hnl0 hN hN254 mode f st hinv hmode with
      hdone | ⟨m2, f2, st2, hlt, hinv2, hmode2, hstep⟩
    · exact ⟨1, fun out => hdone 0 out⟩
    · obtain ⟨fuel0, h0⟩ := ih m2 f2 st2 (by omega) hinv2 hmode2
      exact ⟨fuel0 + 1, hstep fuel0 h0⟩

/-- Termination of the search driver, from the loop entry state: a
formula whose literal tags are all `IN_USE`, whose clause counters are
consistent, and whose literal names avoid the two sentinel collisions
(name `0` = InvalidLiteralName, and more than 254 distinct names would
let the stack depth counter reach the IN_USE sentinel 255). -/
theorem dpll_search_terminates (f : Formula)
    (hcnt : counts_ok f)
    (hfresh : ∀ l ∈ formula_literals f, l.stack_depth = InvalidStackDepth)
    (hname : ∀ l ∈ formula_literals f,
        l.name ≠ InvalidLiteralName ∧ l.name ≤ 254) :
    ∃ fuel, (dpll_search f fuel).isDone = true := by
  have hnl0 : ∀ n ∈ (formula_literals f).map Literal.name,
      n ≠ InvalidLiteralName := by
    intro n hn
    obtain ⟨l, hl, rfl⟩ := List.mem_map.mp hn
    exact (hname l hl).1
  have hN : ∀ xs : List Nat, xs.Nodup →
      (∀ x ∈ xs, x ∈ (formula_literals f).map Literal.name) →
      xs.length ≤ 254 := by
    intro xs hnd hsub
    have hsub' : xs.toFinset ⊆ Finset.Icc 1 254 := by
      intro x hx
      rw [List.mem_toFinset] at hx
      obtain ⟨l, hl, rfl⟩ := List.mem_map.mp (hsub x hx)
      have hb := hname l hl
      rw [Finset.mem_Icc]
      have h0 : l.name ≠ 0 := hb.1
      exact ⟨by omega, hb.2⟩
    have hcard := Finset.card_le_card hsub'
    rw [Nat.card_Icc] at hcard
    rw [List.toFinset_card_of_nodup hnd] at hcard
    omega
  have hinv0 : DriverInv ((formula_literals f).map Literal.name) f [] := by
    refine ⟨hcnt, rfl, ?_, ?_, ?_, ?_, ?_⟩
    · intro l hl
      exact Or.inl (hfresh l hl)
    · intro j hj
      exact absurd hj (by simp)
    · intro j hj
      exact absurd hj (by simp)
    · simp
    · intro e he
      exact absurd he (List.not_mem_nil e)
  obtain ⟨fuel, hdone⟩ := dpll_loop_terminates_aux
    ((formula_literals f).map Literal.name) 254 hnl0 hN (by omega)
    (configMeasure 254 .choose []) .choose f [] (le_refl _) hinv0
    (fun a0 h => nomatch h)
  exact ⟨fuel, hdone []⟩


/-! ## From the parser to the search loop entry state -/

theorem option_all_mem {α : Type} :
    ∀ {xs : List (Option α)} {ys : List α}, option_all xs = some ys →
      ∀ y ∈ ys, some y ∈ xs := by
  intro xs
  induction xs with
  | nil =>
    intro ys h y hy
    have h0 : option_all ([] : List (Option α)) = some [] := rfl
    rw [h0] at h
    injection h with h'
    subst h'
    simp at hy
  | cons o rest ih =>
    intro ys h y hy
    cases o with
    | none => simp [option_all] at h
    | some a =>
      simp only [option_all] at h
      cases hr : option_all rest with
      | none =>
        rw [hr] at h
        simp at h
      | some zs =>
        rw [hr] at h
        simp at h
        subst h
        rcases List.mem_cons.mp hy with rfl | hy'
        · simp
        · exact List.mem_cons_of_mem _ (ih hr y hy')

theorem option_all_length {α : Type} :
    ∀ {xs : List (Option α)} {ys : List α}, option_all xs = some ys →
      ys.length = xs.length := by
  intro xs
  induction xs with
  | nil =>
    intro ys h
    have h0 : option_all ([] : List (Option α)) = some [] := rfl
    rw [h0] at h
    injection h with h'
    subst h'
    rfl
  | cons o rest ih =>
    intro ys h
    cases o with
    | none => simp [option_all] at h
    | some a =>
      simp only [option_all] at h
      cases hr : option_all rest with
      | none =>
        rw [hr] at h
        simp at h
      | some zs =>
        rw [hr] at h
        simp at h
        subst h
        simp [ih hr]

theorem chunks_mem_sub :
    ∀ (n L : Nat) (ls : List Literal) (c : List Literal),
      c ∈ chunks n L ls → ∀ y ∈ c, y ∈ ls := by
  intro n
  induction n with
  | zero =>
    intro L ls c hc
    simp [chunks] at hc
  | succ n ih =>
    intro L ls c hc y hy
    simp only [chunks] at hc
    rcases List.mem_cons.mp hc with rfl | hc'
    · exact List.take_subset L ls hy
    · exact List.drop_subset L ls (ih L (ls.drop L) c hc' y hy)

theorem chunks_length :
    ∀ (n L : Nat) (ls : List Literal), ls.length = L * n →
      ∀ c ∈ chunks n L ls, c.length = L := by
  intro n
  induction n with
  | zero =>
    intro L ls _ c hc
    simp [chunks] at hc
  | succ n ih =>
    intro L ls hlen c hc
    have hsplit : L * (n + 1) = L * n + L := by ring
    simp only [chunks] at hc
    rcases List.mem_cons.mp hc with rfl | hc'
    · simp only [List.length_take]
      omega
    · refine ih L (ls.drop L) ?_ c hc'
      simp only [List.length_drop]
      omega

theorem fill_loop_lit_length (nvariables : Int) (L : Nat) :
    ∀ (tokens : List Int) (i : Nat) (s s2 : Store),
      fill_loop nvariables L tokens i s = .ok s2 →
      s2.literals.length = s.literals.length := by
  intro tokens
  induction tokens with
  | nil =>
    intro i s s2 h
    simp only [fill_loop, FillResult.ok.injEq] at h
    subst h
    rfl
  | cons v rest ih =>
    intro i s s2 h
    simp only [fill_loop] at h
    by_cases hz : (v == 0) = true
    · rw [if_pos hz] at h
      exact ih i s s2 h
    · rw [if_neg hz] at h
      by_cases hgt : v > nvariables
      · rw [if_pos hgt] at h
        simp at h
      · rw [if_neg hgt] at h
        by_cases hi : i < s.literals.length
        · rw [if_pos hi] at h
          have hr := ih (i + 1) _ s2 h
          rw [hr, store_write_literals_length]
        · rw [if_neg hi] at h
          simp at h

theorem store_write_pred (P : Literal → Prop) (s : Store) (L i : Nat)
    (l : Literal)
    (hsP : ∀ ol ∈ s.literals, ∀ x, ol = some x → P x)
    (hsQ : ∀ oc ∈ s.clause_n, ∀ m, oc = some m → m = (L : Int))
    (hl : P l) :
    (∀ ol ∈ (store_write s L i l).literals, ∀ x, ol = some x → P x)
    ∧ (∀ oc ∈ (store_write s L i l).clause_n, ∀ m, oc = some m
        → m = (L : Int)) := by
  unfold store_write
  split
  · refine ⟨?_, ?_⟩
    · intro ol hol x hx
      rcases List.mem_or_eq_of_mem_set hol with h' | heq
      · exact hsP ol h' x hx
      · subst heq
        injection hx with hx'
        subst hx'
        exact hl
    · intro oc hon m hm
      rcases List.mem_or_eq_of_mem_set hon with h' | heq
      · exact hsQ oc h' m hm
      · subst heq
        injection hm with hm'
        subst hm'
        rfl
  · refine ⟨?_, ?_⟩
    · intro ol hol x hx
      rcases List.mem_or_eq_of_mem_set hol with h' | heq
      · exact hsP ol h' x hx
      · subst heq
        injection hx with hx'
        subst hx'
        exact hl
    · exact hsQ

theorem fill_loop_pred (nvariables : Int) (hnv : nvariables ≤ 254) (L : Nat) :
    ∀ (tokens : List Int) (i : Nat) (s : Store),
      (∀ v ∈ tokens, v = 0 ∨ (1 ≤ v.natAbs ∧ (v.natAbs : Int) ≤ nvariables)) →
      (∀ ol ∈ s.literals, ∀ x, ol = some x →
        x.stack_depth = InvalidStackDepth ∧ x.name ≠ InvalidLiteralName
          ∧ x.name ≤ 254) →
      (∀ oc ∈ s.clause_n, ∀ m, oc = some m → m = (L : Int)) →
      ∀ s2, fill_loop nvariables L tokens i s = .ok s2 →
        (∀ ol ∈ s2.literals, ∀ x, ol = some x →
          x.stack_depth = InvalidStackDepth ∧ x.name ≠ InvalidLiteralName
            ∧ x.name ≤ 254)
        ∧ (∀ oc ∈ s2.clause_n, ∀ m, oc = some m → m = (L : Int)) := by
  intro tokens
  induction tokens with
  | nil =>
    intro i s _ hsP hsQ s2 h
    simp only [fill_loop, FillResult.ok.injEq] at h
    subst h
    exact ⟨hsP, hsQ⟩
  | cons v rest ih =>
    intro i s htok hsP hsQ s2 h
    simp only [fill_loop] at h
    by_cases hz : (v == 0) = true
    · rw [if_pos hz] at h
      exact ih i s (fun w hw => htok w (List.mem_cons_of_mem v hw)) hsP hsQ s2 h
    · rw [if_neg hz] at h
      have hv : 1 ≤ v.natAbs ∧ (v.natAbs : Int) ≤ nvariables := by
        rcases htok v (by simp) with h0 | hgood
        · exact absurd (by simp [h0]) hz
        · exact hgood
      by_cases hgt : v > nvariables
      · rw [if_pos hgt] at h
        simp at h
      · rw [if_neg hgt] at h
        by_cases hi : i < s.literals.length
        · rw [if_pos hi] at h
          have habs : (if v > 0 then v else v * (-1)).toNat = v.natAbs := by
            split <;> omega
          have hle : v.natAbs ≤ 254 := by omega
          have hname : (if v > 0 then v else v * (-1)).toNat % 256 = v.natAbs := by
            rw [habs]
            omega
          have hsw := store_write_pred
            (fun x => x.stack_depth = InvalidStackDepth
              ∧ x.name ≠ InvalidLiteralName ∧ x.name ≤ 254)
            s L i ({ name := (if v > 0 then v else v * (-1)).toNat % 256, assigned_value := VAL_UNASSIGNED, is_negated := decide (v < 0), stack_depth := InvalidStackDepth } : Literal) hsP hsQ
            (by
              refine ⟨rfl, ?_, ?_⟩
              · show (if v > 0 then v else v * (-1)).toNat % 256 ≠ InvalidLiteralName
                rw [hname]
                have hz0 : InvalidLiteralName = 0 := rfl
                omega
              · show (if v > 0 then v else v * (-1)).toNat % 256 ≤ 254
                rw [hname]
                exact hle)
          exact ih (i + 1) _ (fun w hw => htok w (List.mem_cons_of_mem v hw))
            hsw.1 hsw.2 s2 h
        · rw [if_neg hi] at h
          simp at h

theorem parsed_formula_search_ready (tokens : List Int) (nclauses : Nat)
    (nvariables : Int) (f : Formula)
    (hnv : nvariables ≤ 254)
    (htok : ∀ v ∈ tokens, v = 0 ∨ (1 ≤ v.natAbs ∧ (v.natAbs : Int) ≤ nvariables))
    (hp : parsed_formula tokens nclauses nvariables = some f) :
    counts_ok f
    ∧ (∀ l ∈ formula_literals f, l.stack_depth = InvalidStackDepth)
    ∧ (∀ l ∈ formula_literals f,
        l.name ≠ InvalidLiteralName ∧ l.name ≤ 254) := by
  unfold parsed_formula at hp
  by_cases hL : (find_nlit_per_clause tokens == 0) = true
  · rw [if_pos hL] at hp
    simp at hp
  · rw [if_neg hL] at hp
    cases hfill : fill_loop nvariables (find_nlit_per_clause tokens) tokens 0
        (initStore (find_nlit_per_clause tokens * nclauses) nclauses) with
    | formatError s out =>
      rw [hfill] at hp
      simp at hp
    | outOfBounds s =>
      rw [hfill] at hp
      simp at hp
    | ok s =>
      rw [hfill] at hp
      have hp2 : assemble_formula s (find_nlit_per_clause tokens) nclauses
          = some f := hp
      have hpred := fill_loop_pred nvariables hnv (find_nlit_per_clause tokens)
        tokens 0 (initStore (find_nlit_per_clause tokens * nclauses) nclauses)
        htok
        (by
          intro ol hol x hx
          simp only [initStore, List.mem_replicate] at hol
          rw [hol.2] at hx
          simp at hx)
        (by
          intro oc hon m hm
          simp only [initStore, List.mem_replicate] at hon
          rw [hon.2] at hm
          simp at hm)
        s hfill
      have hslen : s.literals.length
          = find_nlit_per_clause tokens * nclauses := by
        have hr := fill_loop_lit_length nvariables (find_nlit_per_clause tokens)
          tokens 0 _ s hfill
        rw [hr]
        simp [initStore]
      unfold assemble_formula at hp2
      cases hlits : option_all s.literals with
      | none =>
        rw [hlits] at hp2
        simp at hp2
      | some lits =>
        cases hns : option_all s.clause_n with
        | none =>
          rw [hlits, hns] at hp2
          simp at hp2
        | some ns =>
          rw [hlits, hns] at hp2
          simp only [Option.some.injEq] at hp2
          subst hp2
          have hlitlen : lits.length
              = find_nlit_per_clause tokens * nclauses := by
            rw [option_all_length hlits, hslen]
          have hlitP : ∀ y ∈ lits,
              y.stack_depth = InvalidStackDepth
                ∧ y.name ≠ InvalidLiteralName ∧ y.name ≤ 254 := by
            intro y hy
            exact hpred.1 (some y) (option_all_mem hlits y hy) y rfl
          have hmemlit : ∀ l ∈ formula_literals
              ⟨(List.zip (chunks nclauses (find_nlit_per_clause tokens) lits)
                  ns).map fun p => { lits := p.1, n_in_use := p.2 }⟩,
              l ∈ lits := by
            intro l hl
            unfold formula_literals at hl
            obtain ⟨ls, hls, hl⟩ := List.mem_flatten.mp hl
            obtain ⟨cl, hcl, rfl⟩ := List.mem_map.mp hls
            obtain ⟨p, hpmem, rfl⟩ := List.mem_map.mp hcl
            obtain ⟨c, n⟩ := p
            have hc := (List.of_mem_zip hpmem).1
            exact chunks_mem_sub nclauses _ lits c hc l hl
          refine ⟨?_, ?_, ?_⟩
          · intro cl hcl
            obtain ⟨p, hpmem, rfl⟩ := List.mem_map.mp hcl
            obtain ⟨c, n⟩ := p
            have hc := List.of_mem_zip hpmem
            have hclen := chunks_length nclauses (find_nlit_per_clause tokens)
              lits hlitlen c hc.1
            have hn := hpred.2 (some n) (option_all_mem hns n hc.2) n rfl
            unfold clause_counts_ok
            dsimp only
            rw [hn]
            have hall : ∀ y ∈ c, LiteralIsInUse y = true := by
              intro y hy
              have hyy := hlitP y (chunks_mem_sub nclauses _ lits c hc.1 y hy)
              simp [LiteralIsInUse, hyy.1]
            rw [List.countP_eq_length.mpr hall, hclen]
          · intro l hl
            exact (hlitP l (hmemlit l hl)).1
          · intro l hl
            exact ⟨(hlitP l (hmemlit l hl)).2.1, (hlitP l (hmemlit l hl)).2.2⟩


/-- C4: for every finite CNF formula the parser accepts — a token stream
whose literals stay inside the declared variable range `1..nvariables`
(`main` already rejects `nvariables > 254`), filled into a formula store
the search loop can read — the search driver terminates: some finite fuel
makes `dpll_search` return a `.done` result, i.e. the SAT or UNSAT verdict
or the stack-overflow fatal exit. -/
theorem c4_search_terminates (tokens : List Int) (nclauses : Nat)
    (nvariables : Int) (f : Formula)
    (hnv : nvariables ≤ 254)
    (htok : ∀ v ∈ tokens, v = 0 ∨ (1 ≤ v.natAbs ∧ (v.natAbs : Int) ≤ nvariables))
    (hp : parsed_formula tokens nclauses nvariables = some f) :
    ∃ fuel, (dpll_search f fuel).isDone = true := by
  obtain ⟨h1, h2, h3⟩ :=
    parsed_formula_search_ready tokens nclauses nvariables f hnv htok hp
  exact dpll_search_terminates f h1 h2 h3

/-- Witness for C4 at the concrete input `p cnf 1 1` / `1 0`. -/
theorem c4_search_terminates_witness :
    ∃ fuel, (dpll_search ⟨[⟨[⟨1, VAL_UNASSIGNED, false, InvalidStackDepth⟩], 1⟩]⟩
      fuel).isDone = true :=
  c4_search_terminates [1, 0] 1 1
    ⟨[⟨[⟨1, VAL_UNASSIGNED, false, InvalidStackDepth⟩], 1⟩]⟩
    (by decide) (by decide) (by decide)


/-! ## The unit-propagation fuel is sufficient

Each completed round of the C `retry` loop kills at least one in-use
literal (the unit clause's surviving literal), so `totalInUse f + 1`
rounds always reach the loop's exit: the fueled `unit_propagate` computes
the same result for every fuel beyond that bound. -/

theorem litRel_inUse {d : Nat} {l0 l : Literal} (h : LitRel d l0 l)
    (_h255 : d ≠ InvalidStackDepth) (h0 : l0.name ≠ InvalidLiteralName)
    (hiu : LiteralIsInUse l = true) : LiteralIsInUse l0 = true := by
  have hname : l.name = l0.name := h.1
  rcases h.2.2 with ⟨hdeq, _⟩ | ⟨hd0, _⟩
  · rw [isInUse_eq_depth l0 h0, ← hdeq]
    rw [isInUse_eq_depth l (by rw [hname]; exact h0)] at hiu
    exact hiu
  · rw [isInUse_eq_depth l0 h0, hd0]
    simp

theorem countP_le_of_forall₂ {α β : Type} {R : α → β → Prop}
    (p : α → Bool) (q : β → Bool) :
    ∀ {as : List α} {bs : List β}, List.Forall₂ R as bs →
      (∀ a ∈ as, ∀ b ∈ bs, R a b → q b = true → p a = true) →
      bs.countP q ≤ as.countP p := by
  intro as
  induction as with
  | nil =>
    intro bs h _
    cases h
    simp
  | cons a as ih =>
    intro bs h himp
    cases h with
    | cons hab htl =>
      rename_i b bs2
      rw [List.countP_cons, List.countP_cons]
      have hle := ih htl (fun x hx y hy hr hqq =>
        himp x (List.mem_cons_of_mem a hx) y (List.mem_cons_of_mem b hy) hr hqq)
      have himp0 := himp a (by simp) b (by simp) hab
      split_ifs with h1 h2
      · omega
      · exact absurd (himp0 h1) h2
      · omega
      · omega

theorem countP_lt_of_forall₂_witness {α β : Type} {R : α → β → Prop}
    (p : α → Bool) (q : β → Bool) :
    ∀ {as : List α} {bs : List β}, List.Forall₂ R as bs →
      (∀ a ∈ as, ∀ b ∈ bs, R a b → q b = true → p a = true) →
      ∀ i, ∀ h : i < as.length, ∀ h2 : i < bs.length,
        p (as.get ⟨i, h⟩) = true → q (bs.get ⟨i, h2⟩) = false →
        bs.countP q < as.countP p := by
  intro as
  induction as with
  | nil =>
    intro bs h _ i hi
    exact absurd hi (by simp)
  | cons a as ih =>
    intro bs h himp i hi hi2 hp hq
    cases h with
    | cons hab htl =>
      rename_i b bs2
      rw [List.countP_cons, List.countP_cons]
      have himp' := fun x hx y hy hr hqq =>
        himp x (List.mem_cons_of_mem a hx) y (List.mem_cons_of_mem b hy) hr hqq
      cases i with
      | zero =>
        have hle := countP_le_of_forall₂ p q htl himp'
        have hp0 : p a = true := hp
        have hq0 : q b = false := hq
        have e1 : (if q b = true then 1 else 0) = 0 := by
          rw [hq0]
          simp
        have e2 : (if p a = true then 1 else 0) = 1 := by
          rw [hp0]
          simp
        omega
      | succ i =>
        have hi3 : i < as.length := by simpa using hi
        have hi4 : i < bs2.length := by simpa using hi2
        have hlt := ih htl himp' i hi3 hi4 hp hq
        have himp0 := himp a (by simp) b (by simp) hab
        split_ifs with h1 h2
        · omega
        · exact absurd (himp0 h1) h2
        · omega
        · omega

theorem up_clauses_kills (target : Nat) (value : Bool) (d : Nat)
    (h255 : d ≠ InvalidStackDepth) :
    ∀ cs : List Clause,
      (∀ cl ∈ cs, (∀ x ∈ cl.lits, x.name ≠ InvalidLiteralName)
        ∧ clause_counts_ok cl) →
      (up_clauses target value d cs).2 = true →
      ∀ cl ∈ (up_clauses target value d cs).1, ∀ l ∈ cl.lits,
        l.name = target → LiteralIsInUse l = false := by
  intro cs
  induction cs with
  | nil =>
    intro _ _ cl hcl
    simp [up_clauses] at hcl
  | cons c rest ih =>
    intro hok0 hok cl hcl l hl hname
    simp only [up_clauses] at hok hcl
    by_cases hz : (c.n_in_use == 0) = true
    · rw [if_pos hz] at hok hcl
      rcases List.mem_cons.mp hcl with rfl | hcl2
      · have hcc := (hok0 cl (by simp)).2
        have hz' : cl.n_in_use = 0 := by
          simpa using hz
        unfold clause_counts_ok at hcc
        rw [hz'] at hcc
        have hcp : cl.lits.countP LiteralIsInUse = 0 := by
          omega
        have hdead := List.countP_eq_zero.mp hcp l hl
        cases hq : LiteralIsInUse l
        · rfl
        · exact absurd hq hdead
      · exact ih (fun x hx => hok0 x (List.mem_cons_of_mem c hx)) hok cl hcl2 l hl hname
    · rw [if_neg hz] at hok hcl
      cases hres : plv_clause_loop target (boolToVal value) d c.lits.length 0 c with
      | mk c' okc =>
        cases okc with
        | true =>
          rw [hres] at hok hcl
          simp only at hok hcl
          rcases List.mem_cons.mp hcl with rfl | hcl2
          · have hk := plv_clause_loop_kills target (boolToVal value) d h255
              c.lits.length 0 c (by omega) (hok0 c (by simp)).1
              (fun i hi => absurd hi (by omega)) (by rw [hres])
            rw [hres] at hk
            exact hk l hl hname
          · exact ih (fun x hx => hok0 x (List.mem_cons_of_mem c hx)) hok cl hcl2 l hl hname
        | false =>
          rw [hres] at hok
          simp at hok

theorem up_kills_formula (target : Nat) (value : Bool) (d : Nat)
    (h255 : d ≠ InvalidStackDepth) (f : Formula)
    (hnz : names_ok f) (hcnt : counts_ok f)
    (hok : (up_clauses target value d f.clauses).2 = true) :
    ∀ l ∈ formula_literals ⟨(up_clauses target value d f.clauses).1⟩,
      l.name = target → LiteralIsInUse l = false := by
  intro l hl hname
  unfold formula_literals at hl
  obtain ⟨ls, hls, hl⟩ := List.mem_flatten.mp hl
  obtain ⟨cl, hcl, rfl⟩ := List.mem_map.mp hls
  exact up_clauses_kills target value d h255 f.clauses
    (fun c hc => ⟨names_ok_clause hnz hc, hcnt c hc⟩) hok cl hcl l hl hname

theorem find_unit_target_mem :
    ∀ (lits : List Literal) (acc : Nat × Bool),
      lits.foldl
        (fun acc l => if LiteralIsInUse l then (l.name, !l.is_negated) else acc)
        acc = acc
      ∨ ∃ l ∈ lits, LiteralIsInUse l = true
          ∧ lits.foldl
              (fun acc l =>
                if LiteralIsInUse l then (l.name, !l.is_negated) else acc)
              acc = (l.name, !l.is_negated) := by
  intro lits
  induction lits with
  | nil =>
    intro acc
    left
    rfl
  | cons x rest ih =>
    intro acc
    simp only [List.foldl_cons]
    by_cases hx : LiteralIsInUse x = true
    · rw [if_pos hx]
      rcases ih (x.name, !x.is_negated) with heq | ⟨l, hls, hliu, heq⟩
      · right
        exact ⟨x, by simp, hx, heq⟩
      · right
        exact ⟨l, List.mem_cons_of_mem x hls, hliu, heq⟩
    · rw [if_neg hx]
      rcases ih acc with heq | ⟨l, hls, hliu, heq⟩
      · left
        exact heq
      · right
        exact ⟨l, List.mem_cons_of_mem x hls, hliu, heq⟩

theorem find_unit_clause_mem :
    ∀ (cs : List Clause) (tv : Nat × Bool),
      find_unit_clause cs = some tv → tv.1 ≠ InvalidLiteralName →
      ∃ cl ∈ cs, ∃ l ∈ cl.lits, LiteralIsInUse l = true ∧ l.name = tv.1 := by
  intro cs
  induction cs with
  | nil =>
    intro tv h
    simp [find_unit_clause] at h
  | cons c rest ih =>
    intro tv h ht0
    simp only [find_unit_clause] at h
    by_cases hz : (c.n_in_use == 1) = true
    · rw [if_pos hz] at h
      injection h with h2
      rcases find_unit_target_mem c.lits (InvalidLiteralName, false) with
        heq | ⟨l, hls, hliu, heq⟩
      · exfalso
        apply ht0
        rw [← h2]
        unfold find_unit_target
        rw [heq]
      · refine ⟨c, by simp, l, hls, hliu, ?_⟩
        rw [← h2]
        unfold find_unit_target
        rw [heq]
    · rw [if_neg hz] at h
      obtain ⟨cl, hcl, hrest⟩ := ih tv h ht0
      exact ⟨cl, List.mem_cons_of_mem c hcl, hrest⟩

theorem countP_flatten (p : Literal → Bool) :
    ∀ ls : List (List Literal),
      ls.flatten.countP p = (ls.map fun l => l.countP p).sum := by
  intro ls
  induction ls with
  | nil => rfl
  | cons a t ih =>
    simp only [List.flatten_cons, List.countP_append, List.map_cons,
      List.sum_cons, ih]

theorem totalInUse_flat (f : Formula) :
    totalInUse f = (formula_literals f).countP LiteralIsInUse := by
  unfold totalInUse formula_literals
  rw [countP_flatten, List.map_map]
  rfl

theorem totalInUse_pos (f : Formula) (cl : Clause) (hcl : cl ∈ f.clauses)
    (l : Literal) (hl : l ∈ cl.lits) (hliu : LiteralIsInUse l = true) :
    0 < totalInUse f := by
  rw [totalInUse_flat]
  rw [List.countP_pos_iff]
  refine ⟨l, ?_, hliu⟩
  unfold formula_literals
  exact List.mem_flatten.mpr ⟨cl.lits, List.mem_map_of_mem Clause.lits hcl, hl⟩

theorem up_round_strict (target : Nat) (value : Bool) (d : Nat)
    (h255 : d ≠ InvalidStackDepth) (f : Formula)
    (hnz : names_ok f) (hcnt : counts_ok f)
    (cl0 : Clause) (hcl0 : cl0 ∈ f.clauses) (l0 : Literal) (hl0 : l0 ∈ cl0.lits)
    (hliu : LiteralIsInUse l0 = true) (hlname : l0.name = target)
    (hok : (up_clauses target value d f.clauses).2 = true) :
    totalInUse ⟨(up_clauses target value d f.clauses).1⟩ < totalInUse f := by
  have hup := up_clauses_rel target value d h255 f.clauses
    (fun c hc => ⟨names_ok_clause hnz hc, hcnt c hc⟩)
  have hrel : FormulaRel d f ⟨(up_clauses target value d f.clauses).1⟩ := hup.1
  have hflat := formulaRel_lits hrel
  have hl0mem : l0 ∈ formula_literals f := by
    unfold formula_literals
    exact List.mem_flatten.mpr ⟨cl0.lits, List.mem_map_of_mem Clause.lits hcl0, hl0⟩
  obtain ⟨i, hi, hgl⟩ := List.mem_iff_getElem.mp hl0mem
  have hlen := List.Forall₂.length_eq hflat
  have hi2 : i < (formula_literals
      ⟨(up_clauses target value d f.clauses).1⟩).length := by
    omega
  rw [totalInUse_flat, totalInUse_flat]
  refine countP_lt_of_forall₂_witness LiteralIsInUse LiteralIsInUse hflat
    (fun a ha b _ hab hq => litRel_inUse hab h255 (hnz a ha) hq)
    i hi hi2 ?_ ?_
  · show LiteralIsInUse ((formula_literals f).get ⟨i, hi⟩) = true
    rw [List.get_eq_getElem, hgl]
    exact hliu
  · have hreli := (List.forall₂_iff_get.mp hflat).2 i hi hi2
    have hbname : ((formula_literals
        ⟨(up_clauses target value d f.clauses).1⟩).get ⟨i, hi2⟩).name
        = target := by
      rw [hreli.1]
      rw [List.get_eq_getElem, hgl]
      exact hlname
    refine up_kills_formula target value d h255 f hnz hcnt hok _ ?_ hbname
    rw [List.get_eq_getElem]
    exact List.getElem_mem hi2

theorem unit_propagate_fuel_sufficient (d : Nat) (h255 : d ≠ InvalidStackDepth) :
    ∀ (k : Nat) (f : Formula) (fuel1 fuel2 : Nat), names_ok f → counts_ok f →
      totalInUse f ≤ k → k < fuel1 → k < fuel2 →
      unit_propagate d fuel1 f = unit_propagate d fuel2 f := by
  intro k
  induction k with
  | zero =>
    intro f fuel1 fuel2 hnz hcnt htot h1 h2
    obtain ⟨a, rfl⟩ : ∃ a, fuel1 = a + 1 := ⟨fuel1 - 1, by omega⟩
    obtain ⟨b, rfl⟩ : ∃ b, fuel2 = b + 1 := ⟨fuel2 - 1, by omega⟩
    cases hfu : find_unit_clause f.clauses with
    | none =>
      have hstep : ∀ fuel, unit_propagate d (fuel + 1) f = (f, true) := by
        intro fuel
        simp only [unit_propagate, hfu]
      rw [hstep a, hstep b]
    | some tv =>
      have hstep : ∀ fuel, unit_propagate d (fuel + 1) f
          = if (tv.1 == InvalidLiteralName) = true then (f, true)
            else if (up_clauses tv.1 tv.2 d f.clauses).2 = true then
              unit_propagate d fuel ⟨(up_clauses tv.1 tv.2 d f.clauses).1⟩
            else (⟨(up_clauses tv.1 tv.2 d f.clauses).1⟩, false) := by
        intro fuel
        simp only [unit_propagate, hfu]
      rw [hstep a, hstep b]
      by_cases ht0 : (tv.1 == InvalidLiteralName) = true
      · rw [if_pos ht0, if_pos ht0]
      · exfalso
        obtain ⟨cl, hcl, l, hl, hliu, _⟩ := find_unit_clause_mem f.clauses tv
          hfu (by simpa using ht0)
        have hpos := totalInUse_pos f cl hcl l hl hliu
        omega
  | succ k ih =>
    intro f fuel1 fuel2 hnz hcnt htot h1 h2
    obtain ⟨a, rfl⟩ : ∃ a, fuel1 = a + 1 := ⟨fuel1 - 1, by omega⟩
    obtain ⟨b, rfl⟩ : ∃ b, fuel2 = b + 1 := ⟨fuel2 - 1, by omega⟩
    cases hfu : find_unit_clause f.clauses with
    | none =>
      have hstep : ∀ fuel, unit_propagate d (fuel + 1) f = (f, true) := by
        intro fuel
        simp only [unit_propagate, hfu]
      rw [hstep a, hstep b]
    | some tv =>
      have hstep : ∀ fuel, unit_propagate d (fuel + 1) f
          = if (tv.1 == InvalidLiteralName) = true then (f, true)
            else if (up_clauses tv.1 tv.2 d f.clauses).2 = true then
              unit_propagate d fuel ⟨(up_clauses tv.1 tv.2 d f.clauses).1⟩
            else (⟨(up_clauses tv.1 tv.2 d f.clauses).1⟩, false) := by
        intro fuel
        simp only [unit_propagate, hfu]
      rw [hstep a, hstep b]
      by_cases ht0 : (tv.1 == InvalidLiteralName) = true
      · rw [if_pos ht0, if_pos ht0]
      · rw [if_neg ht0, if_neg ht0]
        cases hr2 : (up_clauses tv.1 tv.2 d f.clauses).2 with
        | false =>
          simp only [hr2, Bool.false_eq_true, if_false]
        | true =>
          simp only [hr2, if_true]
          obtain ⟨cl, hcl, l, hl, hliu, hlname⟩ := find_unit_clause_mem f.clauses
            tv hfu (by simpa using ht0)
          have hup := up_clauses_rel tv.1 tv.2 d h255 f.clauses
            (fun c hc => ⟨names_ok_clause hnz hc, hcnt c hc⟩)
          have hnz2 : names_ok ⟨(up_clauses tv.1 tv.2 d f.clauses).1⟩ :=
            names_ok_of_map (formulaRel_names_map hup.1)
              (fun n hn => by
                obtain ⟨x, hx, rfl⟩ := List.mem_map.mp hn
                exact hnz x hx)
          have hcnt2 : counts_ok ⟨(up_clauses tv.1 tv.2 d f.clauses).1⟩ :=
            fun c hc => hup.2 c hc
          have hstrict := up_round_strict tv.1 tv.2 d h255 f hnz hcnt
            cl hcl l hl hliu hlname hr2
          exact ih ⟨(up_clauses tv.1 tv.2 d f.clauses).1⟩ a b hnz2 hcnt2
            (by omega) (by omega) (by omega)

/-- Any fuel beyond `totalInUse f` computes the very result the driver's
`unit_propagate_run` uses: the chosen fuel reaches the C loop's exit. -/
theorem unit_propagate_run_eq (f : Formula) (d : Nat)
    (h255 : d ≠ InvalidStackDepth) (hnz : names_ok f) (hcnt : counts_ok f)
    (fuel : Nat) (hfuel : totalInUse f < fuel) :
    unit_propagate d fuel f = unit_propagate_run f d :=
  unit_propagate_fuel_sufficient d h255 (totalInUse f) f fuel
    (totalInUse f + 1) hnz hcnt (le_refl _) hfuel (by omega)

end DPLL
